import Mathlib

/-!
Verification of the r2-file-manager reconciliation engine.

The repository presents a flat, prefix-keyed object store (Cloudflare R2) as a
hierarchical file system.  The definitions below are a shallow embedding of the
TypeScript source:

  * `src/services/cloudflare-r2.ts` — `isValidFile`, `listFiles`, `uploadFile`,
    `uploadFolder`, `deleteFile`, `deleteFolder`;
  * `src/app/page.tsx` — `buildFolderStructure`, `handleDeleteFolder`,
    `onDrop`, `filteredFiles`.

JavaScript strings are modelled as Lean `String` (a list of characters); the
JS string operations used by the source (`split('/')`, `slice`, `startsWith`,
`includes`, `join('/')`, `pop`) are mirrored by small `js*` helpers defined on
`String.data`.  The S3 adapter (put / list / delete / presign) is modelled by
explicit traces of adapter events; `ListObjectsV2` may truncate its answer, so
the listing model takes a page-capacity parameter (S3 uses 1000 by default).
-/

/-! ## JS string primitives -/

/-- JS `s.slice(1)`: drop the first character. -/
def jsSlice1 (s : String) : String := ⟨s.data.drop 1⟩

/-- JS `s.startsWith(t)`. -/
def jsStartsWith (s t : String) : Bool := t.data.isPrefixOf s.data

/-- JS `s.endsWith(t)`. -/
def jsEndsWith (s t : String) : Bool := t.data.isSuffixOf s.data

/-- JS `s.includes('/')`. -/
def jsIncludesSlash (s : String) : Bool := s.data.contains '/'

/-- Worker for `jsSplitSlash`; `acc` holds the characters of the current
segment in reverse order. -/
def splitSlashAux : List Char → List Char → List String
  | [], acc => [⟨acc.reverse⟩]
  | c :: cs, acc =>
    if c = '/' then ⟨acc.reverse⟩ :: splitSlashAux cs [] else splitSlashAux cs (c :: acc)

/-- JS `s.split('/')`: always returns a non-empty list of segments. -/
def jsSplitSlash (s : String) : List String := splitSlashAux s.data []

/-- JS `parts.join('/')`. -/
def jsJoinSlash : List String → String
  | [] => ""
  | [s] => s
  | s :: t :: rest => s ++ "/" ++ jsJoinSlash (t :: rest)

/-- JS `fileKey.split('/').pop() || fileKey` — the base name of a key, with the
JS quirk that an empty last segment falls back to the whole key. -/
def jsBaseName (k : String) : String :=
  let n := ((jsSplitSlash k).getLastD "")
  if n = "" then k else n

/-- JS `fileKey.split('/').slice(0, -1).join('/')` — the key with its file
name stripped, as computed by `filteredFiles` in `page.tsx`. -/
def jsDirname (k : String) : String := jsJoinSlash ((jsSplitSlash k).dropLast)

/-! ## Key codec

`cloudflare-r2.ts` converts a logical folder path to an object-store key by
stripping the leading slash, with `/` denoting the empty (root) key
(`uploadFile`, line 335, and `deleteFolder`, line 543), and converts a key back
to a logical path by prepending `/` (`listFiles`, lines 178 and 303). -/

/-- Logical path → object key (`formattedPath` in `uploadFile`). -/
def toKeyJs (p : String) : String :=
  if p = "/" then "" else if jsStartsWith p "/" then jsSlice1 p else p

/-- Object key → logical path (the `'/' + …` pattern in `listFiles`). -/
def toPathJs (k : String) : String := "/" ++ k

/-- The object key `uploadFile` computes for a file name uploaded into a
folder (lines 335–336): strip the leading slash from the folder path and join
with `/`, the root folder mapping to the bare file name. -/
def fileKeyFor (folderPath name : String) : String :=
  let formattedPath := toKeyJs folderPath
  if formattedPath ≠ "" then formattedPath ++ "/" ++ name else name

/-! ### Elementary facts about the primitives -/

theorem jsSlice1_slash_append (k : String) : jsSlice1 ("/" ++ k) = k := by
  cases k with
  | mk d => simp [jsSlice1, String.data_append]

theorem jsStartsWith_slash_append (k : String) : jsStartsWith ("/" ++ k) "/" = true := by
  cases k with
  | mk d => simp [jsStartsWith, String.data_append, List.isPrefixOf]

theorem slash_append_ne_root {k : String} (h : k ≠ "") : ("/" ++ k) ≠ "/" := by
  intro hc
  apply h
  cases k with
  | mk d =>
    have hd : ('/' :: d) = ['/'] := by
      have := congrArg String.data hc
      simpa [String.data_append] using this
    cases d with
    | nil => rfl
    | cons a as => simp at hd

theorem data_eq_of_startsWith_slash {p : String} (h : jsStartsWith p "/" = true) :
    p.data = '/' :: p.data.tail := by
  cases p with
  | mk d =>
    cases d with
    | nil => simp [jsStartsWith, List.isPrefixOf] at h
    | cons c cs =>
      simp only [jsStartsWith] at h
      have : c = '/' := by
        cases hc : c == '/' with
        | false =>
          simp [List.isPrefixOf, hc] at h
          exact h.symm
        | true => exact eq_of_beq hc
      simp [this]

/-- C8: the key codec is a round trip: converting key→path→key yields the key
back for every key, path→key→path yields the path back for every valid logical
path (one that starts with `/`), and the root path `/` and the empty key map to
each other in both directions. -/
theorem c8_key_path_roundtrip :
    (∀ k : String, toKeyJs (toPathJs k) = k) ∧
    (∀ p : String, jsStartsWith p "/" = true → toPathJs (toKeyJs p) = p) ∧
    toPathJs "" = "/" ∧ toKeyJs "/" = "" := by
  refine ⟨?_, ?_, by decide, by decide⟩
  · intro k
    by_cases hk : k = ""
    · subst hk; decide
    · unfold toPathJs toKeyJs
      rw [if_neg (slash_append_ne_root hk), if_pos (jsStartsWith_slash_append k)]
      exact jsSlice1_slash_append k
  · intro p hp
    by_cases hp' : p = "/"
    · subst hp'; decide
    · unfold toKeyJs toPathJs
      rw [if_neg hp', if_pos hp]
      cases p with
      | mk d =>
        have hd := data_eq_of_startsWith_slash hp
        apply String.ext
        simpa [jsSlice1, String.data_append] using hd.symm

/-- Witness for C8 at concrete inputs. -/
theorem c8_key_path_roundtrip_witness :
    toKeyJs (toPathJs "a/b/c.png") = "a/b/c.png" ∧ toPathJs (toKeyJs "/a/b") = "/a/b" :=
  ⟨c8_key_path_roundtrip.1 "a/b/c.png", c8_key_path_roundtrip.2.1 "/a/b" (by decide)⟩

/-! ## Data model -/

/-- The configured upload ceiling (`FILE_SIZE_LIMIT` in both source files):
10 MiB. -/
def FILE_SIZE_LIMIT : Nat := 10 * 1024 * 1024

/-- `FileMetadata` from `cloudflare-r2.ts` (timestamps are abstracted to the
empty string, presigned URLs to a deterministic `presigned:` scheme). -/
structure FileMetadata where
  name : String
  url : String
  publicUrl : String
  size : Nat
  uploadDate : String
  folderPath : String
  fileKey : String
  resolution : Option String := none
  isFolder : Bool := false
deriving DecidableEq, Repr

/-- One adapter call, recorded in execution order. -/
inductive Ev where
  | put (key : String)
  | presign (key : String)
  | del (key : String)
  | listReq (pfx : String)
deriving DecidableEq, Repr

/-- The error taxonomy relevant to the upload path. -/
inductive UploadErr where
  | fileTooLarge
  | storeErr
deriving DecidableEq, Repr

deriving instance DecidableEq for Except

/-- A browser `File`: name and byte size (contents are irrelevant here). -/
structure JsFile where
  name : String
  size : Nat
deriving DecidableEq, Repr

/-- `isValidFile` from `cloudflare-r2.ts` (lines 63–75): `.keep` marker files
are never "valid files"; otherwise a provided positive size must not exceed
the ceiling. -/
def isValidFile (filename : String) (fileSize : Nat) : Bool :=
  if filename = ".keep" then false
  else if fileSize > 0 && decide (fileSize > FILE_SIZE_LIMIT) then false
  else true

/-- `uploadFile` from `cloudflare-r2.ts` (lines 324–383), returning the trace
of adapter calls it issues together with its result.  The size check precedes
any adapter interaction; `.keep` markers bypass it.  `putOk` models which keys
the store's `PutObjectCommand` accepts: a failing put aborts with a store
error after the attempted call; a successful put is followed by the presign
request and yields the file's metadata. -/
def uploadFileR2 (putOk : String → Bool) (file : JsFile) (folderPath : String) :
    List Ev × Except UploadErr FileMetadata :=
  let isFolderMarker := file.name = ".keep"
  if ¬isFolderMarker ∧ file.size > FILE_SIZE_LIMIT then
    ([], .error .fileTooLarge)
  else
    let fileKey := fileKeyFor folderPath file.name
    if putOk fileKey then
      ([.put fileKey, .presign fileKey],
       .ok { name := file.name
             url := "presigned:" ++ fileKey
             publicUrl := "https://files.careerweb.org/" ++ fileKey
             size := file.size
             uploadDate := ""
             folderPath := folderPath
             fileKey := fileKey })
    else ([.put fileKey], .error .storeErr)

/-- C3: uploading a non-marker file larger than the 10,485,760-byte ceiling
fails with `FileTooLarge` before any adapter call (no put, no presign), while
a `.keep`-named marker of any size skips the size check and proceeds straight
to the put. -/
theorem c3_size_ceiling (putOk : String → Bool) (file : JsFile) (folderPath : String) :
    (file.name ≠ ".keep" → file.size > 10485760 →
      uploadFileR2 putOk file folderPath = ([], .error .fileTooLarge)) ∧
    (file.name = ".keep" →
      ∃ k, (uploadFileR2 putOk file folderPath).1.head? = some (.put k)) := by
  constructor
  · intro hname hsize
    have hlim : FILE_SIZE_LIMIT = 10485760 := by norm_num [FILE_SIZE_LIMIT]
    simp only [uploadFileR2, hlim]
    rw [if_pos ⟨hname, hsize⟩]
  · intro hname
    simp only [uploadFileR2]
    rw [if_neg (by simp [hname])]
    by_cases hput : putOk (fileKeyFor folderPath file.name) = true
    · rw [if_pos hput]; exact ⟨_, rfl⟩
    · rw [if_neg hput]; exact ⟨_, rfl⟩

/-- Witness for C3: a 10,485,761-byte file is rejected with no adapter calls;
a `.keep` marker of the same size reaches the put. -/
theorem c3_size_ceiling_witness :
    uploadFileR2 (fun _ => true) ⟨"big.png", 10485761⟩ "/a" = ([], .error .fileTooLarge) ∧
    ∃ k, (uploadFileR2 (fun _ => true) ⟨".keep", 10485761⟩ "/a").1.head? = some (.put k) :=
  ⟨(c3_size_ceiling (fun _ => true) ⟨"big.png", 10485761⟩ "/a").1 (by decide) (by norm_num),
   (c3_size_ceiling (fun _ => true) ⟨".keep", 10485761⟩ "/a").2 rfl⟩

/-- C10: the size comparison is strict in both `isValidFile` and `uploadFile`:
a non-marker file of exactly 10,485,760 bytes passes both checks, rejection
happens only for sizes strictly above the ceiling, and size 0 always passes
the size check. -/
theorem c10_exact_ceiling_accepted :
    (∀ name : String, name ≠ ".keep" → isValidFile name 10485760 = true) ∧
    (∀ (putOk : String → Bool) (f : JsFile) (p : String), f.size ≤ 10485760 →
      (uploadFileR2 putOk f p).2 ≠ .error .fileTooLarge) ∧
    (∀ (name : String) (size : Nat), name ≠ ".keep" → isValidFile name size = false →
      size > 10485760) ∧
    (∀ name : String, name ≠ ".keep" → isValidFile name 0 = true) := by
  have hlim : FILE_SIZE_LIMIT = 10485760 := by norm_num [FILE_SIZE_LIMIT]
  refine ⟨?_, ?_, ?_, ?_⟩
  · intro name hname
    simp [isValidFile, hname, hlim]
  · intro putOk f p hsize
    simp only [uploadFileR2, hlim]
    rw [if_neg (by rintro ⟨-, hgt⟩; omega)]
    repeat' split
    all_goals simp
  · intro name size hname hfalse
    simp only [isValidFile, hlim] at hfalse
    rw [if_neg hname] at hfalse
    by_cases hc : size > 0 ∧ size > 10485760
    · exact hc.2
    · rw [if_neg (by simp only [Bool.and_eq_true, decide_eq_true_eq]; omega)] at hfalse
      cases hfalse
  · intro name hname
    simp [isValidFile, hname]

/-- Witness for C10: the exact-ceiling file `exact.bin` passes the validity
check and is not rejected as too large by `uploadFile`, an oversize rejection
implies the size exceeded the ceiling, and size 0 passes. -/
theorem c10_exact_ceiling_accepted_witness :
    isValidFile "exact.bin" 10485760 = true ∧
    (uploadFileR2 (fun _ => true) ⟨"exact.bin", 10485760⟩ "/").2 ≠ .error .fileTooLarge ∧
    (10485761 : Nat) > 10485760 ∧
    isValidFile "exact.bin" 0 = true :=
  ⟨c10_exact_ceiling_accepted.1 "exact.bin" (by decide),
   c10_exact_ceiling_accepted.2.1 (fun _ => true) ⟨"exact.bin", 10485760⟩ "/" (by norm_num),
   c10_exact_ceiling_accepted.2.2.1 "exact.bin" 10485761 (by decide) (by norm_num [isValidFile, FILE_SIZE_LIMIT]),
   c10_exact_ceiling_accepted.2.2.2 "exact.bin" (by decide)⟩

/-! ## Deletion path

`deleteFolder` (`cloudflare-r2.ts`, lines 539–571) forms a prefix from the
folder path and deletes every key of ONE `ListObjectsV2` page.  The store is a
list of object keys; S3 prefix listing is string-prefix matching, and the
response may be truncated to a page (1000 keys by default — the source sends a
single request with no continuation token and ignores `IsTruncated`). -/

/-- The prefix `deleteFolder` derives from its argument: ensure a trailing
slash, then strip the leading slash (lines 542–543). -/
def delPfx (folderPath : String) : String :=
  let normalizedPath := if jsEndsWith folderPath "/" then folderPath else folderPath ++ "/"
  if jsStartsWith normalizedPath "/" then jsSlice1 normalizedPath else normalizedPath

/-- One page of `ListObjectsV2` results: the keys carrying the given string
prefix, truncated to the first `pageLimit` matches. -/
def listPage (pageLimit : Nat) (store : List String) (pfx : String) : List String :=
  (store.filter (fun k => jsStartsWith k pfx)).take pageLimit

/-- `deleteFolder` from `cloudflare-r2.ts` (lines 539–571): one list request
for the derived prefix, then one delete per returned key.  The result is the
adapter trace and the store after the deletions.  The source has no root-path
check and no pagination loop. -/
def deleteFolderR2 (pageLimit : Nat) (store : List String) (folderPath : String) :
    List Ev × List String :=
  let contents := listPage pageLimit store (delPfx folderPath)
  (.listReq (delPfx folderPath) :: contents.map .del,
   store.filter (fun k => ¬k ∈ contents))

/-- `handleDeleteFolder` from `page.tsx` (lines 410–455): a folder with path
`/` is rejected with a toast error before `deleteFolder` is ever called
(modelled as `none`); any other folder path is handed to `deleteFolder`. -/
def handleDeleteFolder (pageLimit : Nat) (store : List String) (folderPath : String) :
    Option (List Ev × List String) :=
  if folderPath = "/" then none
  else some (deleteFolderR2 pageLimit store folderPath)

/-- C1 counterexample: `deleteFolder('/')` itself does not fail — on a store
holding one object it normalizes `/` to the empty prefix, lists everything and
deletes the object, contradicting "fails with ForbiddenOperation and issues no
delete call". -/
theorem c1_root_delete_counterexample :
    deleteFolderR2 1000 ["x.png"] "/" = ([.listReq "", .del "x.png"], []) := by decide

/-- C1 (amended): the root-rejection guard lives one layer up, in the UI
handler `handleDeleteFolder`, which for path `/` reports an error and returns
without invoking `deleteFolder`, so no adapter call is issued through the UI;
`deleteFolder` itself has no root check — applied to `/` it lists under the
empty prefix and deletes every key of the returned page. -/
theorem c1_root_delete_amended (pageLimit : Nat) (store : List String) :
    handleDeleteFolder pageLimit store "/" = none ∧
    deleteFolderR2 pageLimit store "/" =
      (.listReq "" :: (store.take pageLimit).map .del,
       store.filter (fun k => k ∉ store.take pageLimit)) := by
  constructor
  · simp [handleDeleteFolder]
  · have hpfx : delPfx "/" = "" := by decide
    have hfull : listPage pageLimit store "" = store.take pageLimit := by
      simp [listPage, jsStartsWith, List.isPrefixOf]
    simp [deleteFolderR2, hpfx, hfull]

/-- C5 counterexample: the source sends a single unpaginated list request, so
when the store truncates the listing (page capacity 1 here), only the first
returned key is deleted and a key with prefix `a/` survives — contradicting
"lists all objects under that prefix (paginating if the store truncates) …
after which no key with prefix 'a/' remains". -/
theorem c5_truncation_counterexample :
    deleteFolderR2 1 ["a/x.png", "a/y.png"] "/a" =
      ([.listReq "a/", .del "a/x.png"], ["a/y.png"]) := by decide

/-- C5 (amended): `deleteFolder` normalizes the path to a trailing-slash
prefix with the leading slash stripped and issues a single list request (no
pagination); whenever the listing is not truncated (all matching keys fit in
one page) it issues exactly one delete per key under the prefix, leaving
exactly the non-matching keys, and an empty listing deletes nothing. -/
theorem c5_delete_folder_amended (pageLimit : Nat) (store : List String) (folderPath : String)
    (hfit : (store.filter (fun k => jsStartsWith k (delPfx folderPath))).length ≤ pageLimit) :
    (deleteFolderR2 pageLimit store folderPath).1 =
      .listReq (delPfx folderPath) ::
        (store.filter (fun k => jsStartsWith k (delPfx folderPath))).map .del ∧
    (deleteFolderR2 pageLimit store folderPath).2 =
      store.filter (fun k => ¬jsStartsWith k (delPfx folderPath) = true) ∧
    (store.filter (fun k => jsStartsWith k (delPfx folderPath)) = [] →
      (deleteFolderR2 pageLimit store folderPath).1 = [.listReq (delPfx folderPath)] ∧
      (deleteFolderR2 pageLimit store folderPath).2 = store) := by
  have hcont : listPage pageLimit store (delPfx folderPath) =
      store.filter (fun k => jsStartsWith k (delPfx folderPath)) := by
    simp [listPage, List.take_of_length_le hfit]
  refine ⟨?_, ?_, ?_⟩
  · simp [deleteFolderR2, hcont]
  · simp only [deleteFolderR2, hcont]
    apply List.filter_congr
    intro k hk
    simp only [decide_not, decide_eq_true_eq, Bool.not_eq_true']
    by_cases hm : jsStartsWith k (delPfx folderPath) = true
    · simp [List.mem_filter, hk, hm]
    · simp [List.mem_filter, hm]
  · intro hempty
    constructor
    · simp [deleteFolderR2, hcont, hempty]
    · simp only [deleteFolderR2, hcont, hempty]
      simp

/-- Witness for C5 (amended), which is also the claim's concrete scenario:
deleting `/a` over `{a/b/x.png, a/.keep, a/b/.keep}` (page capacity 1000)
issues exactly three deletes and leaves no key with prefix `a/`. -/
theorem c5_delete_folder_amended_witness :
    (deleteFolderR2 1000 ["a/b/x.png", "a/.keep", "a/b/.keep"] "/a").1 =
      [.listReq "a/", .del "a/b/x.png", .del "a/.keep", .del "a/b/.keep"] ∧
    (deleteFolderR2 1000 ["a/b/x.png", "a/.keep", "a/b/.keep"] "/a").2 = [] := by
  have h := c5_delete_folder_amended 1000 ["a/b/x.png", "a/.keep", "a/b/.keep"] "/a"
    (by decide)
  refine ⟨?_, ?_⟩
  · rw [h.1]; decide
  · rw [h.2.1]; decide

/-- C9: `deleteFolder` only ever deletes keys that start with the
trailing-slash-normalized prefix of the folder (`delPfx`, e.g. `a/` for
`/a`): every stored key that does not begin with that prefix survives the
call, whatever page the listing returns. -/
theorem c9_delete_folder_frame (pageLimit : Nat) (store : List String) (folderPath : String)
    (hroot : folderPath ≠ "/") (k : String) (hk : k ∈ store)
    (hnp : jsStartsWith k (delPfx folderPath) = false) :
    k ∈ (deleteFolderR2 pageLimit store folderPath).2 := by
  have hnc : k ∉ listPage pageLimit store (delPfx folderPath) := by
    intro hmem
    have := List.mem_filter.mp (List.mem_of_mem_take hmem)
    rw [hnp] at this
    exact absurd this.2 (by simp)
  simp only [deleteFolderR2, List.mem_filter]
  exact ⟨hk, by simpa using hnc⟩

/-- Witness for C9: deleting `/a` leaves the sibling folder `ab/` untouched —
`ab/z.png` merely shares a textual prefix with `a` and survives. -/
theorem c9_delete_folder_frame_witness :
    "ab/z.png" ∈ (deleteFolderR2 1000 ["ab/z.png", "a/x.png"] "/a").2 :=
  c9_delete_folder_frame 1000 ["ab/z.png", "a/x.png"] "/a" (by decide) "ab/z.png"
    (by decide) (by decide)

/-! ## Recursive folder upload

`uploadFolder` (`cloudflare-r2.ts`, lines 392–511) walks a dropped
`FileSystemDirectoryEntry` tree: main-folder marker first, then per directory
all file entries, then all subdirectory entries (each preceded by `.keep`
markers for every level of its path). -/

/-- A `FileSystemEntry` tree from the drag-and-drop API. -/
inductive FSEntry where
  | file (f : JsFile)
  | dir (name : String) (entries : List FSEntry)
deriving Repr

/-- Result of one sub-upload inside `uploadFolder`: successful metadata is
pushed onto `results`, a failure is only logged (`console.error`). -/
def keepOk (r : Except UploadErr FileMetadata) : List FileMetadata :=
  match r with
  | .ok m => [m]
  | .error _ => []

/-- The file pass of `processDirectoryEntries` (lines 452–472): each file
entry within the size ceiling, or named `.keep`, is uploaded into
`currentPath`; failures are swallowed after logging. -/
def filePhase (putOk : String → Bool) : List FSEntry → String → List Ev × List FileMetadata
  | [], _ => ([], [])
  | .dir _ _ :: rest, currentPath => filePhase putOk rest currentPath
  | .file f :: rest, currentPath =>
    if f.size ≤ FILE_SIZE_LIMIT ∨ f.name = ".keep" then
      let r := uploadFileR2 putOk f currentPath
      let rst := filePhase putOk rest currentPath
      (r.1 ++ rst.1, keepOk r.2 ++ rst.2)
    else filePhase putOk rest currentPath

/-- The `buildPath` loop of lines 487–499: one `.keep` marker upload per path
level, the path growing one segment at a time; failures are swallowed after
logging. -/
def markerSteps (putOk : String → Bool) : List String → String → List Ev × List FileMetadata
  | [], _ => ([], [])
  | part :: rest, buildPath =>
    let buildPath' := if buildPath ≠ "" then buildPath ++ "/" ++ part else "/" ++ part
    let r := uploadFileR2 putOk ⟨".keep", 0⟩ buildPath'
    let rst := markerSteps putOk rest buildPath'
    (r.1 ++ rst.1, keepOk r.2 ++ rst.2)

/-- Lines 483–499: ensure every level of `subFolderPath` (split on `/`, empty
segments dropped) carries a `.keep` marker. -/
def intermediateMarkers (putOk : String → Bool) (subFolderPath : String) :
    List Ev × List FileMetadata :=
  markerSteps putOk ((jsSplitSlash subFolderPath).filter (fun s => s ≠ "")) ""

mutual
/-- One entry of the directory pass of `processDirectoryEntries` (lines
474–504): a file entry contributes nothing here; a subdirectory first gets
the intermediate markers of its full path, then its file entries, then its
own subdirectories, recursively. -/
def entryDirPhase (putOk : String → Bool) : FSEntry → String → List Ev × List FileMetadata
  | .file _, _ => ([], [])
  | .dir nm subs, currentPath =>
    let subFolderPath := currentPath ++ "/" ++ nm
    let mrk := intermediateMarkers putOk subFolderPath
    let fp := filePhase putOk subs subFolderPath
    let dp := dirPhase putOk subs subFolderPath
    (mrk.1 ++ fp.1 ++ dp.1, mrk.2 ++ fp.2 ++ dp.2)
/-- The directory pass of `processDirectoryEntries` over a list of entries. -/
def dirPhase (putOk : String → Bool) : List FSEntry → String → List Ev × List FileMetadata
  | [], _ => ([], [])
  | e :: rest, currentPath =>
    let d := entryDirPhase putOk e currentPath
    let rst := dirPhase putOk rest currentPath
    (d.1 ++ rst.1, d.2 ++ rst.2)
end

/-- `processDirectoryEntries` (lines 415–505): all file entries first, then
all directory entries. -/
def processDirEntries (putOk : String → Bool) (entries : List FSEntry) (currentPath : String) :
    List Ev × List FileMetadata :=
  let fp := filePhase putOk entries currentPath
  let dp := dirPhase putOk entries currentPath
  (fp.1 ++ dp.1, fp.2 ++ dp.2)

/-- The main-folder path `uploadFolder` derives from the base folder and the
dropped directory's name (lines 396–399). -/
def mainFolderPathOf (baseFolderPath folderName : String) : String :=
  if baseFolderPath = "/" then "/" ++ folderName else baseFolderPath ++ "/" ++ folderName

/-- `uploadFolder` (lines 392–511): upload the main-folder `.keep` marker
(its failure only logged), then walk the tree. -/
def uploadFolderR2 (putOk : String → Bool) (folderName : String) (entries : List FSEntry)
    (baseFolderPath : String) : List Ev × List FileMetadata :=
  let mainFolderPath := mainFolderPathOf baseFolderPath folderName
  let r := uploadFileR2 putOk ⟨".keep", 0⟩ mainFolderPath
  let rst := processDirEntries putOk entries mainFolderPath
  (r.1 ++ rst.1, keepOk r.2 ++ rst.2)

/-! ## Plain multi-file drop

The last branch of `onDrop` (`page.tsx`, lines 697–725) uploads all
size-valid files through `Promise.all`, whose aggregate rejects as soon as
one upload rejects — the successes are then discarded by the generic catch. -/

/-- `Promise.all` over upload results: `ok` with all metadata when every
upload succeeded, otherwise the first error. -/
def collectAll : List (Except UploadErr FileMetadata) → Except UploadErr (List FileMetadata)
  | [] => .ok []
  | .error e :: _ => .error e
  | .ok m :: rest =>
    match collectAll rest with
    | .error e => .error e
    | .ok ms => .ok (m :: ms)

/-- The plain multi-file branch of `onDrop` (lines 697–725): filter out files
above the ceiling, upload the rest concurrently (all are attempted), and
aggregate through `Promise.all`. -/
def onDropRegular (putOk : String → Bool) (acceptedFiles : List JsFile)
    (selectedFolder : String) : List Ev × Except UploadErr (List FileMetadata) :=
  let validFiles := acceptedFiles.filter (fun f => decide (f.size ≤ FILE_SIZE_LIMIT))
  let results := validFiles.map (fun f => uploadFileR2 putOk f selectedFolder)
  ((results.map Prod.fst).flatten, collectAll (results.map Prod.snd))

theorem collectAll_error_of_mem {l : List (Except UploadErr FileMetadata)}
    (h : ∃ r ∈ l, ∃ e, r = .error e) : ∃ e', collectAll l = .error e' := by
  induction l with
  | nil => obtain ⟨r, hr, -⟩ := h; cases hr
  | cons r rest ih =>
    obtain ⟨r', hr', e, he⟩ := h
    cases hr' with
    | head => subst he; exact ⟨e, rfl⟩
    | tail _ hmem =>
      cases r with
      | error e0 => exact ⟨e0, rfl⟩
      | ok m =>
        obtain ⟨e', he'⟩ := ih ⟨r', hmem, e, he⟩
        simp only [collectAll, he']
        exact ⟨e', rfl⟩

theorem filePhase_trace (putOk : String → Bool) (fs : List JsFile) (p : String) :
    (filePhase putOk (fs.map .file) p).1 =
      ((fs.filter (fun f => decide (f.size ≤ FILE_SIZE_LIMIT) || decide (f.name = ".keep"))).map
        (fun f => (uploadFileR2 putOk f p).1)).flatten := by
  induction fs with
  | nil => simp [filePhase]
  | cons f rest ih =>
    by_cases hc : f.size ≤ FILE_SIZE_LIMIT ∨ f.name = ".keep"
    · have hb : (decide (f.size ≤ FILE_SIZE_LIMIT) || decide (f.name = ".keep")) = true := by
        simpa using hc
      simp [filePhase, if_pos hc, hb, ih]
    · have hb : (decide (f.size ≤ FILE_SIZE_LIMIT) || decide (f.name = ".keep")) = false := by
        simpa using hc
      simp [filePhase, if_neg hc, hb, ih]

theorem filePhase_results (putOk : String → Bool) (fs : List JsFile) (p : String) :
    (filePhase putOk (fs.map .file) p).2 =
      (fs.filter (fun f => decide (f.size ≤ FILE_SIZE_LIMIT) || decide (f.name = ".keep"))).filterMap
        (fun f => (uploadFileR2 putOk f p).2.toOption) := by
  induction fs with
  | nil => simp [filePhase]
  | cons f rest ih =>
    by_cases hc : f.size ≤ FILE_SIZE_LIMIT ∨ f.name = ".keep"
    · have hb : (decide (f.size ≤ FILE_SIZE_LIMIT) || decide (f.name = ".keep")) = true := by
        simpa using hc
      cases hr : (uploadFileR2 putOk f p).2 with
      | ok m =>
        simp [filePhase, if_pos hc, hb, ih, keepOk, hr, List.filterMap_cons, Except.toOption]
      | error e =>
        simp [filePhase, if_pos hc, hb, ih, keepOk, hr, List.filterMap_cons, Except.toOption]
    · have hb : (decide (f.size ≤ FILE_SIZE_LIMIT) || decide (f.name = ".keep")) = false := by
        simpa using hc
      simp [filePhase, if_neg hc, hb, ih]

/-- C6 (amended): one unit's failure never prevents sibling units from being
attempted, but per-unit outcomes are not all recorded.  In the folder walk
(`uploadFolder`'s file pass) every eligible file is attempted in order and
only the successful metadata is collected — a failed unit leaves no failure
entry in the result, its error being merely logged; in the plain multi-file
drop every size-valid file is attempted, yet a single failing unit collapses
the whole batch to one aggregate error, discarding the successes. -/
theorem c6_batch_failure_amended (putOk : String → Bool) (fs : List JsFile) (p : String) :
    (filePhase putOk (fs.map .file) p).1 =
      ((fs.filter (fun f => decide (f.size ≤ FILE_SIZE_LIMIT) || decide (f.name = ".keep"))).map
        (fun f => (uploadFileR2 putOk f p).1)).flatten ∧
    (filePhase putOk (fs.map .file) p).2 =
      (fs.filter (fun f => decide (f.size ≤ FILE_SIZE_LIMIT) || decide (f.name = ".keep"))).filterMap
        (fun f => (uploadFileR2 putOk f p).2.toOption) ∧
    (onDropRegular putOk fs p).1 =
      ((fs.filter (fun f => decide (f.size ≤ FILE_SIZE_LIMIT))).map
        (fun f => (uploadFileR2 putOk f p).1)).flatten ∧
    (∀ f ∈ fs, f.size ≤ FILE_SIZE_LIMIT → ∀ e, (uploadFileR2 putOk f p).2 = .error e →
      ∃ e', (onDropRegular putOk fs p).2 = .error e') := by
  refine ⟨filePhase_trace putOk fs p, filePhase_results putOk fs p, ?_, ?_⟩
  · simp only [onDropRegular, List.map_map]
    rfl
  · intro f hf hsize e he
    apply collectAll_error_of_mem
    refine ⟨(uploadFileR2 putOk f p).2, ?_, e, he⟩
    simp only [List.map_map, List.mem_map]
    exact ⟨f, List.mem_filter.mpr ⟨hf, by simpa using hsize⟩, rfl⟩

/-- Witness for C6 (amended): with the adapter failing exactly on `f2.png`,
the folder-walk file pass over three files collects the two successes and no
failure entry, and the plain multi-file drop collapses to an aggregate
error. -/
theorem c6_batch_failure_amended_witness :
    (filePhase (fun k => !(k == "f2.png"))
        [FSEntry.file ⟨"f1.png", 1⟩, FSEntry.file ⟨"f2.png", 1⟩, FSEntry.file ⟨"f3.png", 1⟩]
        "/").2 =
      ([⟨"f1.png", 1⟩, ⟨"f3.png", 1⟩] : List JsFile).map (fun f =>
        { name := f.name
          url := "presigned:" ++ f.name
          publicUrl := "https://files.careerweb.org/" ++ f.name
          size := f.size
          uploadDate := ""
          folderPath := "/"
          fileKey := f.name }) ∧
    ∃ e', (onDropRegular (fun k => !(k == "f2.png"))
      [⟨"f1.png", 1⟩, ⟨"f2.png", 1⟩, ⟨"f3.png", 1⟩] "/").2 = .error e' := by
  constructor
  · rw [show [FSEntry.file ⟨"f1.png", 1⟩, FSEntry.file ⟨"f2.png", 1⟩, FSEntry.file ⟨"f3.png", 1⟩] =
        ([⟨"f1.png", 1⟩, ⟨"f2.png", 1⟩, ⟨"f3.png", 1⟩] : List JsFile).map FSEntry.file from rfl,
       (c6_batch_failure_amended (fun k => !(k == "f2.png"))
        [⟨"f1.png", 1⟩, ⟨"f2.png", 1⟩, ⟨"f3.png", 1⟩] "/").2.1]
    decide
  · exact (c6_batch_failure_amended (fun k => !(k == "f2.png"))
      [⟨"f1.png", 1⟩, ⟨"f2.png", 1⟩, ⟨"f3.png", 1⟩] "/").2.2.2
      ⟨"f2.png", 1⟩ (by decide) (by decide) .storeErr (by decide)

/-- C6 counterexample: a batch of three files where the adapter fails on the
second is reduced by `Promise.all` to a single aggregate `StoreError` — all
three uploads are attempted (the trace shows the puts for files 1 and 3
succeeding), but the batch result records no success for files 1 and 3 and no
per-file failure entry for file 2, contradicting the claim. -/
theorem c6_batch_failure_counterexample :
    (onDropRegular (fun k => !(k == "f2.png"))
        [⟨"f1.png", 1⟩, ⟨"f2.png", 1⟩, ⟨"f3.png", 1⟩] "/").1 =
      [.put "f1.png", .presign "f1.png", .put "f2.png", .put "f3.png", .presign "f3.png"] ∧
    (onDropRegular (fun k => !(k == "f2.png"))
        [⟨"f1.png", 1⟩, ⟨"f2.png", 1⟩, ⟨"f3.png", 1⟩] "/").2 = .error .storeErr := by
  decide

/-! ### Split and join lemmas -/

theorem strAppend_assoc (a b c : String) : (a ++ b) ++ c = a ++ (b ++ c) := by
  apply String.ext
  simp [String.data_append]

theorem splitSlashAux_append_slash (d1 d2 : List Char) (acc : List Char) :
    splitSlashAux (d1 ++ '/' :: d2) acc = splitSlashAux d1 acc ++ splitSlashAux d2 [] := by
  induction d1 generalizing acc with
  | nil => simp [splitSlashAux]
  | cons c cs ih =>
    by_cases hc : c = '/'
    · subst hc
      simp [splitSlashAux, ih]
    · simp [splitSlashAux, hc, ih]

theorem jsSplitSlash_append_slash (a b : String) :
    jsSplitSlash (a ++ "/" ++ b) = jsSplitSlash a ++ jsSplitSlash b := by
  have hd : (a ++ "/" ++ b).data = a.data ++ '/' :: b.data := by
    simp [String.data_append]
  simp only [jsSplitSlash, hd]
  exact splitSlashAux_append_slash a.data b.data []

theorem splitSlashAux_no_slash (d : List Char) (acc : List Char)
    (h : d.contains '/' = false) :
    splitSlashAux d acc = [⟨acc.reverse ++ d⟩] := by
  induction d generalizing acc with
  | nil => simp [splitSlashAux]
  | cons c cs ih =>
    have hc : ¬c = '/' := by
      intro hc
      subst hc
      simp [List.contains_cons] at h
    have hcs : cs.contains '/' = false := by
      simp [List.contains_cons] at h
      simpa using h.2
    simp [splitSlashAux, hc, ih _ hcs]

theorem jsSplitSlash_no_slash (s : String) (h : s.data.contains '/' = false) :
    jsSplitSlash s = [s] := by
  cases s with
  | mk d => simpa [jsSplitSlash] using splitSlashAux_no_slash d [] h

theorem jsSplitSlash_slash_cons (s : String) :
    jsSplitSlash ("/" ++ s) = "" :: jsSplitSlash s := by
  have hd : ("/" ++ s).data = '/' :: s.data := by
    simp [String.data_append]
  simp only [jsSplitSlash, hd, splitSlashAux]
  rfl

theorem jsJoinSlash_snoc (l : List String) (s : String) (h : l ≠ []) :
    jsJoinSlash (l ++ [s]) = jsJoinSlash l ++ "/" ++ s := by
  induction l with
  | nil => cases h rfl
  | cons x xs ih =>
    cases xs with
    | nil => simp [jsJoinSlash]
    | cons y ys =>
      have h2 : jsJoinSlash ((x :: y :: ys) ++ [s]) = x ++ "/" ++ jsJoinSlash ((y :: ys) ++ [s]) := rfl
      have h3 : jsJoinSlash (x :: y :: ys) = x ++ "/" ++ jsJoinSlash (y :: ys) := rfl
      rw [h2, ih (by simp), h3]
      apply String.ext
      simp [String.data_append]

theorem jsSplitSlash_join (l : List String) (hne : l ≠ [])
    (h : ∀ s ∈ l, s.data.contains '/' = false) :
    jsSplitSlash (jsJoinSlash l) = l := by
  induction l with
  | nil => cases hne rfl
  | cons x xs ih =>
    cases xs with
    | nil => simpa [jsJoinSlash] using jsSplitSlash_no_slash x (h x (by simp))
    | cons y ys =>
      have hx : jsJoinSlash (x :: y :: ys) = x ++ "/" ++ jsJoinSlash (y :: ys) := rfl
      rw [hx, jsSplitSlash_append_slash, jsSplitSlash_no_slash x (h x (by simp)),
        ih (by simp) (fun s hs => h s (by simp [hs]))]
      rfl

/-! ### Absolute paths from segments -/

/-- A well-formed path segment: nonempty and slash-free (as produced by the
file-system API for directory and file names). -/
def GoodSeg (s : String) : Prop := s ≠ "" ∧ s.data.contains '/' = false

/-- The absolute logical path with the given `/`-separated segments, e.g.
`absPath ["a", "b"] = "/a/b"`. -/
def absPath (segs : List String) : String := "/" ++ jsJoinSlash segs

theorem absPath_singleton (s : String) : absPath [s] = "/" ++ s := rfl

theorem absPath_snoc (segs : List String) (h : segs ≠ []) (s : String) :
    absPath (segs ++ [s]) = absPath segs ++ "/" ++ s := by
  apply String.ext
  simp [absPath, jsJoinSlash_snoc segs s h, String.data_append]

theorem absPath_ne_empty (segs : List String) : absPath segs ≠ "" := by
  intro hc
  have := congrArg String.data hc
  simp [absPath, String.data_append] at this

theorem jsJoinSlash_ne_empty (segs : List String) (hne : segs ≠ [])
    (hgood : ∀ s ∈ segs, GoodSeg s) : jsJoinSlash segs ≠ "" := by
  cases segs with
  | nil => cases hne rfl
  | cons x xs =>
    cases xs with
    | nil => exact (hgood x (by simp)).1
    | cons y ys =>
      have hx : jsJoinSlash (x :: y :: ys) = x ++ "/" ++ jsJoinSlash (y :: ys) := rfl
      rw [hx]
      intro hc
      have := congrArg String.data hc
      simp [String.data_append] at this

theorem jsSplitSlash_absPath (segs : List String) (hne : segs ≠ [])
    (hgood : ∀ s ∈ segs, GoodSeg s) :
    jsSplitSlash (absPath segs) = "" :: segs := by
  rw [absPath, jsSplitSlash_slash_cons, jsSplitSlash_join segs hne (fun s hs => (hgood s hs).2)]

theorem filter_jsSplitSlash_absPath (segs : List String) (hne : segs ≠ [])
    (hgood : ∀ s ∈ segs, GoodSeg s) :
    (jsSplitSlash (absPath segs)).filter (fun s => s ≠ "") = segs := by
  rw [jsSplitSlash_absPath segs hne hgood]
  rw [List.filter_cons]
  simp only [ne_eq, not_true_eq_false, decide_False, Bool.false_eq_true, if_false]
  rw [List.filter_eq_self.mpr]
  intro s hs
  simpa using (hgood s hs).1

theorem toKeyJs_absPath (segs : List String) (hne : segs ≠ [])
    (hgood : ∀ s ∈ segs, GoodSeg s) :
    toKeyJs (absPath segs) = jsJoinSlash segs := by
  unfold toKeyJs absPath
  rw [if_neg (slash_append_ne_root (jsJoinSlash_ne_empty segs hne hgood)),
    if_pos (jsStartsWith_slash_append _)]
  exact jsSlice1_slash_append _

theorem fileKeyFor_absPath (segs : List String) (hne : segs ≠ [])
    (hgood : ∀ s ∈ segs, GoodSeg s) (name : String) :
    fileKeyFor (absPath segs) name = jsJoinSlash segs ++ "/" ++ name := by
  unfold fileKeyFor
  rw [toKeyJs_absPath segs hne hgood,
    if_pos (jsJoinSlash_ne_empty segs hne hgood)]

/-! ### Marker keys and base names -/

/-- The key of the `.keep` marker object of a folder path. -/
def markerKeyAt (folderPath : String) : String := fileKeyFor folderPath ".keep"

theorem jsBaseName_append_name (x name : String) (hn : name.data.contains '/' = false)
    (hne : name ≠ "") : jsBaseName (x ++ "/" ++ name) = name := by
  unfold jsBaseName
  rw [jsSplitSlash_append_slash, jsSplitSlash_no_slash name hn]
  simp only [List.getLastD_concat]
  rw [if_neg hne]

theorem jsBaseName_markerKeyAt (L : String) : jsBaseName (markerKeyAt L) = ".keep" := by
  unfold markerKeyAt fileKeyFor
  by_cases h : toKeyJs L ≠ ""
  · rw [if_pos h]
    exact jsBaseName_append_name _ ".keep" (by decide) (by decide)
  · rw [if_neg h]
    decide

/-! ### Trace shape of the upload walk -/

theorem uploadFileR2_events (putOk : String → Bool) (f : JsFile) (p : String) :
    ∀ e ∈ (uploadFileR2 putOk f p).1,
      e = .put (fileKeyFor p f.name) ∨ e = .presign (fileKeyFor p f.name) := by
  intro e he
  simp only [uploadFileR2] at he
  split at he
  · simp at he
  · split at he
    · simp only [List.mem_cons, List.not_mem_nil, or_false] at he
      rcases he with h | h
      · exact .inl h
      · exact .inr h
    · simp only [List.mem_cons, List.not_mem_nil, or_false] at he
      exact .inl he

theorem uploadFileR2_marker_head (putOk : String → Bool) (L : String) :
    ∃ t, (uploadFileR2 putOk ⟨".keep", 0⟩ L).1 = .put (markerKeyAt L) :: t := by
  simp only [uploadFileR2, markerKeyAt]
  rw [if_neg (by simp)]
  split
  · exact ⟨_, rfl⟩
  · exact ⟨_, rfl⟩

theorem markerSteps_events (putOk : String → Bool) :
    ∀ (parts : List String) (bp : String), ∀ e ∈ (markerSteps putOk parts bp).1,
      ∃ L, e = .put (markerKeyAt L) ∨ e = .presign (markerKeyAt L) := by
  intro parts
  induction parts with
  | nil =>
    intro bp e he
    simp [markerSteps] at he
  | cons part rest ih =>
    intro bp e he
    simp only [markerSteps] at he
    rw [List.mem_append] at he
    rcases he with he | he
    · rcases uploadFileR2_events putOk ⟨".keep", 0⟩ _ e he with h | h
      · exact ⟨_, .inl h⟩
      · exact ⟨_, .inr h⟩
    · exact ih _ e he

theorem markerSteps_put_basename (putOk : String → Bool) (parts : List String) (bp k : String)
    (h : Ev.put k ∈ (markerSteps putOk parts bp).1) : jsBaseName k = ".keep" := by
  rcases markerSteps_events putOk parts bp _ h with ⟨L, hL | hL⟩
  · simp only [Ev.put.injEq] at hL
    rw [hL]
    exact jsBaseName_markerKeyAt L
  · simp at hL

theorem markerSteps_mem_last (putOk : String → Bool) :
    ∀ (parts pre : List String), parts ≠ [] →
      Ev.put (markerKeyAt (absPath (pre ++ parts))) ∈
        (markerSteps putOk parts (if pre = [] then "" else absPath pre)).1 := by
  intro parts
  induction parts with
  | nil =>
    intro pre h
    cases h rfl
  | cons part rest ih =>
    intro pre hne
    have hbp : (if (if pre = [] then "" else absPath pre) ≠ "" then
        (if pre = [] then "" else absPath pre) ++ "/" ++ part else "/" ++ part) =
        absPath (pre ++ [part]) := by
      by_cases hp : pre = []
      · simp [hp, absPath_singleton]
      · rw [if_neg hp, if_pos (absPath_ne_empty pre), absPath_snoc pre hp part]
    simp only [markerSteps, hbp]
    rw [List.mem_append]
    cases rest with
    | nil =>
      left
      obtain ⟨t, ht⟩ := uploadFileR2_marker_head putOk (absPath (pre ++ [part]))
      rw [ht]
      simp
    | cons r rs =>
      right
      have hassoc : pre ++ part :: r :: rs = (pre ++ [part]) ++ (r :: rs) := by simp
      rw [hassoc]
      have := ih (pre ++ [part]) (by simp)
      rwa [if_neg (by simp)] at this

theorem intermediateMarkers_mem_self (putOk : String → Bool) (segs : List String)
    (hne : segs ≠ []) (hgood : ∀ s ∈ segs, GoodSeg s) :
    Ev.put (markerKeyAt (absPath segs)) ∈ (intermediateMarkers putOk (absPath segs)).1 := by
  unfold intermediateMarkers
  rw [filter_jsSplitSlash_absPath segs hne hgood]
  have := markerSteps_mem_last putOk segs [] hne
  simpa using this

theorem filePhase_put_mem (putOk : String → Bool) :
    ∀ (es : List FSEntry) (cp : String) (k : String),
      Ev.put k ∈ (filePhase putOk es cp).1 → ∃ nm, k = fileKeyFor cp nm := by
  intro es
  induction es with
  | nil =>
    intro cp k h
    simp [filePhase] at h
  | cons e rest ih =>
    intro cp k h
    cases e with
    | dir nm subs => exact ih cp k (by simpa [filePhase] using h)
    | file f =>
      simp only [filePhase] at h
      split at h
      · rw [List.mem_append] at h
        rcases h with h | h
        · rcases uploadFileR2_events putOk f cp _ h with h1 | h1
          · simp only [Ev.put.injEq] at h1
            exact ⟨f.name, h1⟩
          · simp at h1
        · exact ih cp k h
      · exact ih cp k h

/-! ### Decomposition of concatenated traces -/

theorem cut_of_append {α : Type} {X Y A B : List α} {e : α} (h : X ++ Y = A ++ e :: B) :
    (∃ C, X = A ++ e :: C) ∨ (∃ D, A = X ++ D ∧ Y = D ++ e :: B) := by
  rcases List.append_eq_append_iff.mp h with ⟨a2, ha1, ha2⟩ | ⟨c2, hc1, hc2⟩
  · exact .inr ⟨a2, ha1, ha2⟩
  · cases c2 with
    | nil =>
      refine .inr ⟨[], by simpa using hc1.symm, ?_⟩
      simpa using hc2.symm
    | cons x xs =>
      left
      injection hc2 with h1 h2
      exact ⟨xs, by rw [hc1, h1]⟩

/-! ### Descending through subdirectories -/

/-- Descend from a folder path through a chain of subdirectory names, the way
`processDirectoryEntries` extends `currentPath`. -/
def descend (p : String) : List String → String
  | [] => p
  | nm :: rest => descend (p ++ "/" ++ nm) rest

/-- The folder paths strictly below `p` visited while descending. -/
def pathsBelow (p : String) : List String → List String
  | [] => []
  | nm :: rest => (p ++ "/" ++ nm) :: pathsBelow (p ++ "/" ++ nm) rest

theorem descend_absPath (ds : List String) :
    ∀ (csegs : List String), csegs ≠ [] → descend (absPath csegs) ds = absPath (csegs ++ ds) := by
  induction ds with
  | nil => intro csegs h; simp [descend]
  | cons nm rest ih =>
    intro csegs h
    have h1 : descend (absPath csegs) (nm :: rest) = descend (absPath csegs ++ "/" ++ nm) rest := rfl
    rw [h1, ← absPath_snoc csegs h nm, ih (csegs ++ [nm]) (by simp)]
    simp

/-- Well-formedness of an `FSEntry` tree: every directory name is a nonempty,
slash-free segment (as the file-system API guarantees). -/
inductive GoodTree : FSEntry → Prop
  | file (f : JsFile) : GoodTree (.file f)
  | dir (nm : String) (es : List FSEntry) :
      GoodSeg nm → (∀ e ∈ es, GoodTree e) → GoodTree (.dir nm es)

mutual
/-- Size of an entry tree, for strong induction over the upload walk. -/
def fsSize : FSEntry → Nat
  | .file _ => 1
  | .dir _ es => 1 + fsListSize es
/-- Size of a list of entry trees. -/
def fsListSize : List FSEntry → Nat
  | [] => 0
  | e :: rest => fsSize e + fsListSize rest
end

theorem fsSize_pos (e : FSEntry) : 1 ≤ fsSize e := by
  cases e with
  | file f => simp [fsSize]
  | dir nm es => simp [fsSize]

theorem dirPhase_marker_precedence (putOk : String → Bool) :
    ∀ (n : Nat) (es : List FSEntry) (csegs : List String), fsListSize es ≤ n →
      csegs ≠ [] → (∀ s ∈ csegs, GoodSeg s) → (∀ e ∈ es, GoodTree e) →
      ∀ (A B : List Ev) (k : String),
        (dirPhase putOk es (absPath csegs)).1 = A ++ Ev.put k :: B →
        jsBaseName k ≠ ".keep" →
        ∃ ds nm, ds ≠ [] ∧ (∀ s ∈ ds, GoodSeg s) ∧
          k = fileKeyFor (absPath (csegs ++ ds)) nm ∧
          ∀ L ∈ pathsBelow (absPath csegs) ds, Ev.put (markerKeyAt L) ∈ A := by
  intro n
  induction n with
  | zero =>
    intro es csegs hsz _ _ _ A B k htr _
    cases es with
    | nil => exact absurd htr (by simp [dirPhase])
    | cons e rest =>
      have := fsSize_pos e
      simp [fsListSize] at hsz
      omega
  | succ n ih =>
    intro es csegs hsz hcne hcg hgood A B k htr hbn
    cases es with
    | nil => exact absurd htr (by simp [dirPhase])
    | cons e rest =>
      cases e with
      | file f =>
        have hsz' : fsListSize rest ≤ n := by
          simp [fsListSize, fsSize] at hsz
          omega
        exact ih rest csegs hsz' hcne hcg (fun e he => hgood e (by simp [he]))
          A B k (by simpa [dirPhase, entryDirPhase] using htr) hbn
      | dir nm subs =>
        have hgd : GoodSeg nm ∧ ∀ e ∈ subs, GoodTree e := by
          have hh := hgood _ (List.mem_cons_self _ _)
          cases hh with
          | dir _ _ h1 h2 => exact ⟨h1, h2⟩
        obtain ⟨hnmGood, hsubsGood⟩ := hgd
        have hsubP : absPath csegs ++ "/" ++ nm = absPath (csegs ++ [nm]) :=
          (absPath_snoc csegs hcne nm).symm
        have hcsegs1 : (csegs ++ [nm]) ≠ [] := by simp
        have hcg1 : ∀ s ∈ csegs ++ [nm], GoodSeg s := by
          intro s hs
          rcases List.mem_append.mp hs with h | h
          · exact hcg s h
          · simp at h
            subst h
            exact hnmGood
        have hszsubs : fsListSize subs ≤ n := by
          simp [fsListSize, fsSize] at hsz
          omega
        have hszrest : fsListSize rest ≤ n := by
          simp [fsListSize, fsSize] at hsz
          omega
        have hT : (dirPhase putOk (.dir nm subs :: rest) (absPath csegs)).1 =
            (intermediateMarkers putOk (absPath (csegs ++ [nm]))).1 ++
            ((filePhase putOk subs (absPath (csegs ++ [nm]))).1 ++
            ((dirPhase putOk subs (absPath (csegs ++ [nm]))).1 ++
            (dirPhase putOk rest (absPath csegs)).1)) := by
          simp only [dirPhase, entryDirPhase]
          rw [hsubP]
          simp [List.append_assoc]
        rw [hT] at htr
        rcases cut_of_append htr with ⟨C, hC⟩ | ⟨D1, hA1, h1⟩
        · have hk : Ev.put k ∈ (intermediateMarkers putOk (absPath (csegs ++ [nm]))).1 := by
            rw [hC]
            simp
          have := markerSteps_put_basename putOk _ _ k (by simpa [intermediateMarkers] using hk)
          exact absurd this hbn
        · rcases cut_of_append h1 with ⟨C, hC⟩ | ⟨D2, hA2, h2⟩
          · have hk : Ev.put k ∈ (filePhase putOk subs (absPath (csegs ++ [nm]))).1 := by
              rw [hC]
              simp
            obtain ⟨nm2, hnm2⟩ := filePhase_put_mem putOk subs _ k hk
            refine ⟨[nm], nm2, by simp, ?_, hnm2, ?_⟩
            · intro s hs
              simp at hs
              subst hs
              exact hnmGood
            · intro L hL
              simp only [pathsBelow, List.mem_singleton] at hL
              subst hL
              rw [hA1, hsubP]
              exact List.mem_append_left _
                (intermediateMarkers_mem_self putOk (csegs ++ [nm]) hcsegs1 hcg1)
          · rcases cut_of_append h2 with ⟨C, hC⟩ | ⟨D3, hA3, h3⟩
            · obtain ⟨ds', nm', hds'ne, hds'g, hk, hmk⟩ :=
                ih subs (csegs ++ [nm]) hszsubs hcsegs1 hcg1 hsubsGood D2 C k hC hbn
              refine ⟨nm :: ds', nm', by simp, ?_, ?_, ?_⟩
              · intro s hs
                rcases List.mem_cons.mp hs with h | h
                · subst h
                  exact hnmGood
                · exact hds'g s h
              · rw [hk]
                have hap : (csegs ++ [nm]) ++ ds' = csegs ++ nm :: ds' := by simp
                rw [hap]
              · intro L hL
                simp only [pathsBelow, List.mem_cons] at hL
                rcases hL with hL | hL
                · subst hL
                  rw [hA1, hsubP]
                  exact List.mem_append_left _
                    (intermediateMarkers_mem_self putOk (csegs ++ [nm]) hcsegs1 hcg1)
                · rw [hA1, hA2]
                  have hmem := hmk L (by rwa [hsubP] at hL)
                  exact List.mem_append_right _ (List.mem_append_right _ hmem)
            · obtain ⟨ds, nm', hdsne, hdsg, hk, hmk⟩ :=
                ih rest csegs hszrest hcne hcg (fun e he => hgood e (by simp [he])) D3 B k h3 hbn
              refine ⟨ds, nm', hdsne, hdsg, hk, ?_⟩
              intro L hL
              rw [hA1, hA2, hA3]
              exact List.mem_append_right _ (List.mem_append_right _
                (List.mem_append_right _ (hmk L hL)))

/-- C7: in the recursive tree upload, the `.keep` marker put for a folder
level causally precedes every file put at or below that level: every
non-marker put of a key `k` in `uploadFolder`'s adapter trace uploads into a
folder `descend main ds` reached from the main folder, and marker puts for
the main folder and for every intermediate level down to that folder occur
strictly earlier in the trace.  On the two-level scenario (one file at the
top, one file one level down) the put trace is exactly the listed one:
exactly two distinct marker keys are put (top and nested folder, the top one
re-put idempotently) along with the two file keys, the nested-folder marker
put preceding the nested file put. -/
theorem c7_marker_precedence (putOk : String → Bool) (folderName : String)
    (entries : List FSEntry) (base : String)
    (hbase : base = "/" ∨ ∃ bsegs, bsegs ≠ [] ∧ (∀ s ∈ bsegs, GoodSeg s) ∧ base = absPath bsegs)
    (hfn : GoodSeg folderName) (htree : ∀ e ∈ entries, GoodTree e) :
    (∀ A B k, (uploadFolderR2 putOk folderName entries base).1 = A ++ Ev.put k :: B →
      jsBaseName k ≠ ".keep" →
      ∃ ds nm, k = fileKeyFor (descend (mainFolderPathOf base folderName) ds) nm ∧
        ∀ L ∈ mainFolderPathOf base folderName ::
            pathsBelow (mainFolderPathOf base folderName) ds,
          Ev.put (markerKeyAt L) ∈ A) ∧
    (uploadFolderR2 (fun _ => true) "top"
        [.file ⟨"top.png", 1⟩, .dir "sub" [.file ⟨"deep.png", 1⟩]] "/").1 =
      [.put "top/.keep", .presign "top/.keep",
       .put "top/top.png", .presign "top/top.png",
       .put "top/.keep", .presign "top/.keep",
       .put "top/sub/.keep", .presign "top/sub/.keep",
       .put "top/sub/deep.png", .presign "top/sub/deep.png"] ∧
    ((uploadFolderR2 (fun _ => true) "top"
        [.file ⟨"top.png", 1⟩, .dir "sub" [.file ⟨"deep.png", 1⟩]] "/").1.filterMap
      (fun e => match e with
        | Ev.put k => if jsBaseName k == ".keep" then some k else none
        | _ => none)).dedup = ["top/.keep", "top/sub/.keep"] ∧
    ((uploadFolderR2 (fun _ => true) "top"
        [.file ⟨"top.png", 1⟩, .dir "sub" [.file ⟨"deep.png", 1⟩]] "/").1.filterMap
      (fun e => match e with
        | Ev.put k => if jsBaseName k == ".keep" then none else some k
        | _ => none)) = ["top/top.png", "top/sub/deep.png"] := by
  refine ⟨?_, by decide, by decide, by decide⟩
  intro A B k htr hbn
  obtain ⟨msegs, hmne, hmg, hmp⟩ : ∃ msegs, msegs ≠ [] ∧ (∀ s ∈ msegs, GoodSeg s) ∧
      mainFolderPathOf base folderName = absPath msegs := by
    rcases hbase with hb | ⟨bsegs, hbne, hbg, hb⟩
    · refine ⟨[folderName], by simp, ?_, ?_⟩
      · intro s hs
        simp at hs
        subst hs
        exact hfn
      · simp [mainFolderPathOf, hb, absPath_singleton]
    · refine ⟨bsegs ++ [folderName], by simp, ?_, ?_⟩
      · intro s hs
        rcases List.mem_append.mp hs with h | h
        · exact hbg s h
        · simp at h
          subst h
          exact hfn
      · have hbroot : base ≠ "/" := by
          rw [hb]
          unfold absPath
          exact slash_append_ne_root (jsJoinSlash_ne_empty bsegs hbne hbg)
        rw [mainFolderPathOf, if_neg hbroot, hb, absPath_snoc bsegs hbne folderName]
  have hT : (uploadFolderR2 putOk folderName entries base).1 =
      (uploadFileR2 putOk ⟨".keep", 0⟩ (absPath msegs)).1 ++
      ((filePhase putOk entries (absPath msegs)).1 ++
       (dirPhase putOk entries (absPath msegs)).1) := by
    simp only [uploadFolderR2, processDirEntries, hmp]
  rw [hT] at htr
  rcases cut_of_append htr with ⟨C, hC⟩ | ⟨D1, hA1, h1⟩
  · have hk : Ev.put k ∈ (uploadFileR2 putOk ⟨".keep", 0⟩ (absPath msegs)).1 := by
      rw [hC]
      simp
    rcases uploadFileR2_events putOk ⟨".keep", 0⟩ _ _ hk with h | h
    · simp only [Ev.put.injEq] at h
      refine absurd ?_ hbn
      rw [h]
      exact jsBaseName_markerKeyAt (absPath msegs)
    · simp at h
  · rcases cut_of_append h1 with ⟨C, hC⟩ | ⟨D2, hA2, h2⟩
    · have hk : Ev.put k ∈ (filePhase putOk entries (absPath msegs)).1 := by
        rw [hC]
        simp
      obtain ⟨nm2, hnm2⟩ := filePhase_put_mem putOk entries _ k hk
      refine ⟨[], nm2, ?_, ?_⟩
      · rw [show descend (mainFolderPathOf base folderName) [] =
          mainFolderPathOf base folderName from rfl, hmp]
        exact hnm2
      · intro L hL
        simp only [pathsBelow, List.mem_singleton] at hL
        subst hL
        rw [hA1]
        obtain ⟨t, ht⟩ := uploadFileR2_marker_head putOk (absPath msegs)
        apply List.mem_append_left
        rw [hmp, ht]
        simp
    · obtain ⟨ds, nm', hdsne, hdsg, hk, hmk⟩ := dirPhase_marker_precedence putOk
        (fsListSize entries) entries msegs le_rfl hmne hmg htree D2 B k h2 hbn
      refine ⟨ds, nm', ?_, ?_⟩
      · rw [hmp, descend_absPath ds msegs hmne]
        exact hk
      · intro L hL
        rcases List.mem_cons.mp hL with h | h
        · subst h
          rw [hA1]
          apply List.mem_append_left
          obtain ⟨t, ht⟩ := uploadFileR2_marker_head putOk (absPath msegs)
          rw [hmp, ht]
          simp
        · rw [hA1, hA2]
          refine List.mem_append_right _ (List.mem_append_right _ (hmk L ?_))
          rwa [hmp] at h

/-- Witness for C7: applying the precedence theorem to the nested file put of
the two-level scenario — markers for `/top` and `/top/sub` occur among the
first eight trace events, before the nested file's put. -/
theorem c7_marker_precedence_witness :
    ∃ ds nm, "top/sub/deep.png" = fileKeyFor (descend (mainFolderPathOf "/" "top") ds) nm ∧
      ∀ L ∈ mainFolderPathOf "/" "top" :: pathsBelow (mainFolderPathOf "/" "top") ds,
        Ev.put (markerKeyAt L) ∈
          [Ev.put "top/.keep", Ev.presign "top/.keep",
           Ev.put "top/top.png", Ev.presign "top/top.png",
           Ev.put "top/.keep", Ev.presign "top/.keep",
           Ev.put "top/sub/.keep", Ev.presign "top/sub/.keep"] :=
  (c7_marker_precedence (fun _ => true) "top"
      [.file ⟨"top.png", 1⟩, .dir "sub" [.file ⟨"deep.png", 1⟩]] "/"
      (.inl rfl) ⟨by decide, by decide⟩
      (by
        intro e he
        rcases List.mem_cons.mp he with h | h
        · subst h
          exact .file _
        · simp only [List.mem_singleton] at h
          subst h
          refine .dir _ _ ⟨by decide, by decide⟩ ?_
          intro e2 he2
          simp only [List.mem_singleton] at he2
          subst he2
          exact .file _)).1
    [Ev.put "top/.keep", Ev.presign "top/.keep",
     Ev.put "top/top.png", Ev.presign "top/top.png",
     Ev.put "top/.keep", Ev.presign "top/.keep",
     Ev.put "top/sub/.keep", Ev.presign "top/sub/.keep"]
    [Ev.presign "top/sub/deep.png"]
    "top/sub/deep.png" (by decide) (by decide)

/-! ## Listing and view projection

The root branch of `listFiles` (lines 93–212) fetches every object, derives
virtual folder entries from the keys and from the delimiter listing's
`CommonPrefixes`, and maps real objects to metadata, skipping `.keep`
markers.  `filteredFiles` in `page.tsx` (lines 776–798) then projects the
result onto the currently selected folder. -/

/-- A raw object of a store listing (`ListObjectsV2` `Contents` item). -/
structure R2Object where
  key : String
  size : Nat
deriving DecidableEq, Repr

/-- Insertion into a JS `Set` modelled as an insertion-ordered list. -/
def setInsert (l : List String) (x : String) : List String :=
  if x ∈ l then l else l ++ [x]

/-- The folder-path extraction loop of `listFiles` (lines 125–131): walk the
key's segments except the last, skipping empty ones, and emit each
accumulated path as `/path/`. -/
def addTrailPathsAux : List String → String → List String
  | [], _ => []
  | s :: rest, path =>
    if s = "" then addTrailPathsAux rest path
    else
      let path' := if path ≠ "" then path ++ "/" ++ s else s
      ("/" ++ path' ++ "/") :: addTrailPathsAux rest path'

/-- All parent folder paths of one key, as `listFiles` collects them. -/
def keyFolderPathsTrail (k : String) : List String :=
  addTrailPathsAux ((jsSplitSlash k).dropLast) ""

/-- The `folderPaths` set accumulated over all listed objects (lines
119–132). -/
def folderPathsOf (contents : List R2Object) : List String :=
  contents.foldl (fun acc item => (keyFolderPathsTrail item.key).foldl setInsert acc) []

/-- A virtual folder entry for a detected folder path (lines 137–151). -/
def folderObjectOf (folderPath : String) : FileMetadata :=
  let pathParts := (jsSplitSlash folderPath).filter (fun s => s ≠ "")
  { name := pathParts.getLastD ""
    url := ""
    publicUrl := "https://files.careerweb.org" ++ folderPath
    size := 0
    uploadDate := ""
    folderPath := "/" ++ jsJoinSlash pathParts.dropLast
    fileKey := folderPath
    isFolder := true }

/-- The metadata record built for one listed object (lines 172–180). -/
def listedMeta (item : R2Object) : FileMetadata :=
  { name := jsBaseName item.key
    url := "presigned:" ++ item.key
    publicUrl := "https://files.careerweb.org/" ++ item.key
    size := item.size
    uploadDate := ""
    folderPath := "/" ++ (if jsIncludesSlash item.key then jsDirname item.key else "")
    fileKey := item.key }

/-- Metadata for one listed object (lines 154–181): `.keep` markers map to
`null` and are dropped from the listing. -/
def fileObjectOf (item : R2Object) : Option FileMetadata :=
  if jsBaseName item.key = ".keep" then none else some (listedMeta item)

/-- The `CommonPrefixes` of the delimiter-scoped root listing (S3 semantics):
one `seg/` per distinct first segment among keys containing `/`, in
first-occurrence order. -/
def commonPrefixesRoot (contents : List R2Object) : List String :=
  contents.foldl (fun acc item =>
    if jsIncludesSlash item.key then
      setInsert acc (((jsSplitSlash item.key).getD 0 "") ++ "/")
    else acc) []

/-- A folder placeholder derived from one common prefix (lines 189–207). -/
def folderPlaceholderOf (folderKey : String) : Option FileMetadata :=
  if jsEndsWith folderKey "/" then some
    { name := ((jsSplitSlash folderKey).filter (fun s => s ≠ "")).getLastD ""
      url := ""
      publicUrl := "https://files.careerweb.org/" ++ folderKey
      size := 0
      uploadDate := ""
      folderPath := "/"
      fileKey := folderKey
      isFolder := true }
  else none

/-- The root branch of `listFiles` (lines 93–212): placeholders from the
common prefixes, then virtual folder objects, then the processed files (with
`.keep` markers dropped). -/
def listFilesRoot (contents : List R2Object) : List FileMetadata :=
  let folderObjects := (folderPathsOf contents).map folderObjectOf
  let processedFiles := (contents.map fileObjectOf).filterMap id
  let allObjects := folderObjects ++ processedFiles
  let folderPlaceholders := (commonPrefixesRoot contents).filterMap folderPlaceholderOf
  folderPlaceholders ++ allObjects

/-- `filteredFiles` from `page.tsx` (lines 776–798): drop folder
placeholders; at root keep only keys without `/`; elsewhere keep files whose
key, with the file name stripped, equals the selected folder path without its
leading slash. -/
def filteredFiles (files : List FileMetadata) (selectedFolder : String) : List FileMetadata :=
  files.filter (fun file =>
    if file.isFolder then false
    else if selectedFolder = "/" then !jsIncludesSlash file.fileKey
    else
      let normalizedFolder := if jsStartsWith selectedFolder "/" then jsSlice1 selectedFolder
        else selectedFolder
      jsDirname file.fileKey == normalizedFolder)

theorem self_ne_append_slash (x extra : String) : x ≠ x ++ "/" ++ extra := by
  intro hc
  have h := congrArg (fun s => s.data.length) hc
  simp [String.data_append] at h

/-- The folder-match condition `filteredFiles` applies to a key. -/
def projCond (sel : String) (key : String) : Bool :=
  if sel = "/" then !jsIncludesSlash key
  else jsDirname key == (if jsStartsWith sel "/" then jsSlice1 sel else sel)

theorem filteredFiles_processed (sel : String) (l : List R2Object) :
    (filteredFiles (l.filterMap fileObjectOf) sel).map (fun f => f.fileKey) =
      (l.filter (fun o => decide (jsBaseName o.key ≠ ".keep") && projCond sel o.key)).map
        (fun o => o.key) := by
  induction l with
  | nil => simp [filteredFiles]
  | cons o rest ih =>
    by_cases hm : jsBaseName o.key = ".keep"
    · have hnone : fileObjectOf o = none := by simp [fileObjectOf, hm]
      rw [List.filterMap_cons, hnone, List.filter_cons]
      rw [show (decide (jsBaseName o.key ≠ ".keep") && projCond sel o.key) = false by simp [hm]]
      exact ih
    · have hsome : fileObjectOf o = some (listedMeta o) := by simp [fileObjectOf, hm]
      rw [List.filterMap_cons, hsome, List.filter_cons]
      rw [show (decide (jsBaseName o.key ≠ ".keep") && projCond sel o.key) =
        projCond sel o.key by simp [hm]]
      unfold filteredFiles at ih ⊢
      rw [List.filter_cons]
      have hpred : (if (listedMeta o).isFolder then false
          else if sel = "/" then !jsIncludesSlash (listedMeta o).fileKey
          else
            let normalizedFolder := if jsStartsWith sel "/" then jsSlice1 sel else sel
            jsDirname (listedMeta o).fileKey == normalizedFolder) = projCond sel o.key := by
        simp [listedMeta, projCond]
      rw [hpred]
      by_cases hp : projCond sel o.key = true
      · rw [if_pos hp, if_pos hp]
        simp only [List.map_cons]
        rw [show (listedMeta o).fileKey = o.key from rfl, ih]
      · rw [if_neg hp, if_neg hp]
        exact ih

theorem filteredFiles_listFilesRoot (contents : List R2Object) (sel : String) :
    filteredFiles (listFilesRoot contents) sel =
      filteredFiles (contents.filterMap fileObjectOf) sel := by
  have hfm : (contents.map fileObjectOf).filterMap id = contents.filterMap fileObjectOf := by
    rw [List.filterMap_map]
    simp [Function.comp]
  have hfolders : ∀ x ∈ (folderPathsOf contents).map folderObjectOf,
      FileMetadata.isFolder x = true := by
    intro x hx
    rcases List.mem_map.mp hx with ⟨p, -, rfl⟩
    rfl
  have hplace : ∀ x ∈ (commonPrefixesRoot contents).filterMap folderPlaceholderOf,
      FileMetadata.isFolder x = true := by
    intro x hx
    rcases List.mem_filterMap.mp hx with ⟨p, -, hp⟩
    unfold folderPlaceholderOf at hp
    split at hp
    · rw [Option.some.injEq] at hp
      rw [← hp]
    · cases hp
  simp only [listFilesRoot, filteredFiles, hfm]
  rw [List.filter_append, List.filter_append]
  rw [List.filter_eq_nil_iff.mpr (fun x hx => by simp [hplace x hx]),
    List.filter_eq_nil_iff.mpr (fun x hx => by simp [hfolders x hx])]
  simp

/-- C4: the per-folder `directFiles` projection contains exactly the listed
non-marker objects whose key with the file name stripped equals the selected
folder's key (at root: exactly the keys with no `/` at all), in listing
order; no `.keep` marker ever appears, and no file whose directory lies
strictly below the selected folder — in particular none living two or more
levels below — ever appears. -/
theorem c4_direct_files (contents : List R2Object) (sel : String) :
    ((filteredFiles (listFilesRoot contents) sel).map (fun f => f.fileKey) =
      (contents.filter (fun o => decide (jsBaseName o.key ≠ ".keep") &&
        projCond sel o.key)).map (fun o => o.key)) ∧
    (∀ f ∈ filteredFiles (listFilesRoot contents) sel, jsBaseName f.fileKey ≠ ".keep") ∧
    (sel = "/" → ∀ f ∈ filteredFiles (listFilesRoot contents) sel,
      jsIncludesSlash f.fileKey = false) ∧
    (sel ≠ "/" → ∀ f ∈ filteredFiles (listFilesRoot contents) sel,
      jsDirname f.fileKey = toKeyJs sel ∧
      ∀ extra : String, jsDirname f.fileKey ≠ toKeyJs sel ++ "/" ++ extra) := by
  have hmem : ∀ f ∈ filteredFiles (listFilesRoot contents) sel,
      (∃ o, o ∈ contents ∧ jsBaseName o.key ≠ ".keep" ∧ f = listedMeta o) ∧
      (if sel = "/" then !jsIncludesSlash f.fileKey
       else jsDirname f.fileKey ==
        (if jsStartsWith sel "/" then jsSlice1 sel else sel)) = true := by
    intro f hf
    rw [filteredFiles_listFilesRoot] at hf
    unfold filteredFiles at hf
    have hf1 := List.mem_filter.mp hf
    have hshape : ∃ o, o ∈ contents ∧ jsBaseName o.key ≠ ".keep" ∧ f = listedMeta o := by
      rcases List.mem_filterMap.mp hf1.1 with ⟨o, ho, hfo⟩
      unfold fileObjectOf at hfo
      by_cases hm : jsBaseName o.key = ".keep"
      · rw [if_pos hm] at hfo
        cases hfo
      · rw [if_neg hm, Option.some.injEq] at hfo
        exact ⟨o, ho, hm, hfo.symm⟩
    refine ⟨hshape, ?_⟩
    have hpred := hf1.2
    have hif : f.isFolder = false := by
      rcases hshape with ⟨o, -, -, rfl⟩
      rfl
    simpa [hif] using hpred
  refine ⟨?_, ?_, ?_, ?_⟩
  · rw [filteredFiles_listFilesRoot]
    exact filteredFiles_processed sel contents
  · intro f hf
    rcases (hmem f hf).1 with ⟨o, -, hm, rfl⟩
    exact hm
  · intro hsel f hf
    have h := (hmem f hf).2
    rw [if_pos hsel] at h
    simpa using h
  · intro hsel f hf
    have h := (hmem f hf).2
    rw [if_neg hsel] at h
    have heq : jsDirname f.fileKey = (if jsStartsWith sel "/" then jsSlice1 sel else sel) :=
      eq_of_beq h
    have htk : toKeyJs sel = (if jsStartsWith sel "/" then jsSlice1 sel else sel) := by
      unfold toKeyJs
      rw [if_neg hsel]
    constructor
    · rw [heq, htk]
    · intro extra
      rw [heq, ← htk]
      exact fun hc => self_ne_append_slash (toKeyJs sel) extra (htk ▸ hc)

/-- Witness for C4: over `{a/b/x.png, a/.keep, d.png, a/b/c/y.png}` the folder
`/a/b` shows exactly `a/b/x.png` (no marker, nothing from the deeper `c/`),
and its key with the file name stripped is the folder's key. -/
theorem c4_direct_files_witness :
    ((filteredFiles (listFilesRoot [⟨"a/b/x.png", 1⟩, ⟨"a/.keep", 0⟩, ⟨"d.png", 2⟩,
        ⟨"a/b/c/y.png", 3⟩]) "/a/b").map (fun f => f.fileKey) = ["a/b/x.png"]) ∧
    jsDirname (listedMeta ⟨"a/b/x.png", 1⟩).fileKey = toKeyJs "/a/b" := by
  constructor
  · rw [(c4_direct_files [⟨"a/b/x.png", 1⟩, ⟨"a/.keep", 0⟩, ⟨"d.png", 2⟩, ⟨"a/b/c/y.png", 3⟩]
      "/a/b").1]
    decide
  · exact ((c4_direct_files [⟨"a/b/x.png", 1⟩, ⟨"a/.keep", 0⟩, ⟨"d.png", 2⟩, ⟨"a/b/c/y.png", 3⟩]
      "/a/b").2.2.2 (by decide) (listedMeta ⟨"a/b/x.png", 1⟩) (by decide)).1

/-! ## Tree builder (`buildFolderStructure`, `page.tsx` lines 269–342) -/

/-- The path-hierarchy loop of `buildFolderStructure` (lines 287–294): walk
the key's segments except the last, skipping empty ones, and emit each
accumulated path with a leading slash. -/
def addPathsAux : List String → String → List String
  | [], _ => []
  | s :: rest, currentPath =>
    if s = "" then addPathsAux rest currentPath
    else
      let currentPath' := if currentPath ≠ "" then currentPath ++ "/" ++ s else s
      ("/" ++ currentPath') :: addPathsAux rest currentPath'

/-- All ancestor folder paths of one key (lines 283–295). -/
def keyFolderPaths (k : String) : List String :=
  addPathsAux ((jsSplitSlash k).dropLast) ""

/-- The `allPaths` set: the root first, then every ancestor path of every
file key, deduplicated in insertion order (lines 277–295). -/
def allPathsOf (files : List FileMetadata) : List String :=
  files.foldl (fun acc f => (keyFolderPaths f.fileKey).foldl setInsert acc) ["/"]

/-- The comparator of lines 298–300: ascending `split('/')` length. -/
def depthLe (a b : String) : Bool := (jsSplitSlash a).length ≤ (jsSplitSlash b).length

/-- Stable insertion for `sortByDepth`: an element goes after every element
that compares less-or-equal, the order a stable comparator sort produces. -/
def insertLe : String → List String → List String
  | x, [] => [x]
  | x, y :: ys => if depthLe x y then x :: y :: ys else y :: insertLe x ys

/-- The sort of lines 298–300 (JS `Array.prototype.sort` is a stable
comparator sort), modelled as stable insertion sort by ascending depth. -/
def sortByDepth : List String → List String
  | [] => []
  | x :: xs => insertLe x (sortByDepth xs)

/-- A folder node of the map under construction: its display name and the
paths of its children in insertion order.  The JS objects share mutable
`children` arrays; storing child paths and resolving them at the end yields
the same tree. -/
structure NodeInfo where
  name : String
  childPaths : List String
deriving DecidableEq, Repr

/-- The `folderMap` (a JS `Map`), as an insertion-ordered association list. -/
abbrev FolderMap := List (String × NodeInfo)

def mapLookup : FolderMap → String → Option NodeInfo
  | [], _ => none
  | (q, info) :: rest, p => if q = p then some info else mapLookup rest p

def mapKeys (m : FolderMap) : List String := m.map Prod.fst

/-- `folderMap.get(parentPath).children.push(newFolder)` guarded by the
duplicate-child check of lines 328–332. -/
def mapAddChild : FolderMap → String → String → FolderMap
  | [], _, _ => []
  | (q, info) :: rest, parentPath, childPath =>
    if q = parentPath then
      (q, ⟨info.name, if childPath ∈ info.childPaths then info.childPaths
        else info.childPaths ++ [childPath]⟩) :: rest
    else (q, info) :: mapAddChild rest parentPath childPath

/-- The parent path computed on lines 312–314: all nonempty segments but the
last; an empty remainder means the root. -/
def parentPathOf (path : String) : String :=
  let pathParts := (jsSplitSlash path).filter (fun s => s ≠ "")
  let parentPathParts := pathParts.dropLast
  if parentPathParts.length = 0 then "/" else "/" ++ jsJoinSlash parentPathParts

/-- The folder name computed on line 310: the last nonempty segment. -/
def folderNameOf (path : String) : String :=
  ((jsSplitSlash path).filter (fun s => s ≠ "")).getLastD ""

/-- One step of the second pass (lines 305–337): skip the root, skip paths
already in the map, otherwise create the node (`folderMap.set`) and append
it to its parent's children when the parent exists — a missing parent is
only warned about, leaving the node unlinked. -/
def processPath (m : FolderMap) (path : String) : FolderMap :=
  if path = "/" then m
  else if (mapLookup m path).isSome then m
  else
    let m1 := m ++ [(path, ⟨folderNameOf path, []⟩)]
    match mapLookup m1 (parentPathOf path) with
    | some _ => mapAddChild m1 (parentPathOf path) path
    | none => m1

/-- The `folderMap` after the second pass, starting from the root node. -/
def finalMap (files : List FileMetadata) : FolderMap :=
  (sortByDepth (allPathsOf files)).foldl processPath [("/", ⟨"Root", []⟩)]

/-- A node of the resulting folder tree. -/
inductive Folder where
  | mk (name : String) (path : String) (children : List Folder)
deriving Repr

def Folder.path : Folder → String
  | .mk _ p _ => p

def Folder.fname : Folder → String
  | .mk nm _ _ => nm

def nameAt (m : FolderMap) (p : String) : String :=
  match mapLookup m p with
  | some info => info.name
  | none => ""

def childPathsAt (m : FolderMap) (p : String) : List String :=
  match mapLookup m p with
  | some info => info.childPaths
  | none => []

/-- Resolve the child-path graph of the finished map into the recursive
`Folder` tree the shared mutable JS objects form, with recursion depth
bounded by `fuel` (chosen beyond the deepest path in the map). -/
def materializeList (m : FolderMap) : Nat → List String → List Folder
  | 0, ps => ps.map (fun p => Folder.mk (nameAt m p) p [])
  | fuel + 1, ps => ps.map (fun p => Folder.mk (nameAt m p) p
      (materializeList m fuel (childPathsAt m p)))

/-- A bound on the segment depth of every key in the map. -/
def mapDepthBound (m : FolderMap) : Nat :=
  (m.map (fun e => ((jsSplitSlash e.1).filter (fun s => s ≠ "")).length)).foldr max 0

/-- `buildFolderStructure` (lines 269–342): build the map over the sorted
candidate paths and return `[root]`. -/
def buildFolderStructure (files : List FileMetadata) : List Folder :=
  let m := finalMap files
  materializeList m (mapDepthBound m + 1) ["/"]

mutual
/-- Number of nodes carrying the given path in a folder tree. -/
def countPath : Folder → String → Nat
  | .mk _ p children, q => (if p = q then 1 else 0) + countPathList children q
/-- Number of nodes carrying the given path in a forest. -/
def countPathList : List Folder → String → Nat
  | [], _ => 0
  | f :: fs, q => countPath f q + countPathList fs q
end

/-- The number of nonempty segments of a path (`/` has depth 0, `/a/b`
depth 2). -/
def depthOf (p : String) : Nat := ((jsSplitSlash p).filter (fun s => s ≠ "")).length

/-! ### Sort facts -/

theorem depthLe_total (a b : String) : (depthLe a b || depthLe b a) = true := by
  simp [depthLe]
  omega

theorem depthLe_trans (a b c : String) (h1 : depthLe a b = true) (h2 : depthLe b c = true) :
    depthLe a c = true := by
  simp [depthLe] at h1 h2 ⊢
  omega

theorem insertLe_perm (x : String) (l : List String) : (insertLe x l).Perm (x :: l) := by
  induction l with
  | nil => exact List.Perm.refl _
  | cons y ys ih =>
    by_cases h : depthLe x y = true
    · rw [show insertLe x (y :: ys) = x :: y :: ys by simp [insertLe, h]]
    · rw [show insertLe x (y :: ys) = y :: insertLe x ys by simp [insertLe, h]]
      exact (ih.cons y).trans (List.Perm.swap x y ys)

theorem sortByDepth_perm (l : List String) : (sortByDepth l).Perm l := by
  induction l with
  | nil => exact List.Perm.refl _
  | cons x xs ih => exact (insertLe_perm x _).trans (ih.cons x)

theorem mem_sortByDepth (l : List String) (x : String) : x ∈ sortByDepth l ↔ x ∈ l :=
  (sortByDepth_perm l).mem_iff

theorem insertLe_pairwise (x : String) (l : List String)
    (hl : l.Pairwise (fun a b => depthLe a b = true)) :
    (insertLe x l).Pairwise (fun a b => depthLe a b = true) := by
  induction l with
  | nil => simp [insertLe]
  | cons y ys ih =>
    rcases List.pairwise_cons.mp hl with ⟨hy, hys⟩
    by_cases h : depthLe x y = true
    · rw [show insertLe x (y :: ys) = x :: y :: ys by simp [insertLe, h]]
      refine List.pairwise_cons.mpr ⟨?_, hl⟩
      intro b hb
      rcases List.mem_cons.mp hb with rfl | hbm
      · exact h
      · exact depthLe_trans x y b h (hy b hbm)
    · rw [show insertLe x (y :: ys) = y :: insertLe x ys by simp [insertLe, h]]
      have hyx : depthLe y x = true := by
        have ht := depthLe_total x y
        rw [Bool.or_eq_true] at ht
        rcases ht with h1 | h1
        · exact absurd h1 h
        · exact h1
      refine List.pairwise_cons.mpr ⟨?_, ih hys⟩
      intro b hb
      have hb' := (insertLe_perm x ys).mem_iff.mp hb
      rcases List.mem_cons.mp hb' with rfl | hbm
      · exact hyx
      · exact hy b hbm

theorem sortByDepth_pairwise (l : List String) :
    (sortByDepth l).Pairwise (fun a b => depthLe a b = true) := by
  induction l with
  | nil => simp [sortByDepth]
  | cons x xs ih => exact insertLe_pairwise x _ ih

/-! ### Segments of split keys are slash-free -/

theorem splitSlashAux_slash_free (d : List Char) (acc : List Char)
    (hacc : acc.contains '/' = false) :
    ∀ s ∈ splitSlashAux d acc, s.data.contains '/' = false := by
  induction d generalizing acc with
  | nil =>
    intro s hs
    simp [splitSlashAux] at hs
    subst hs
    simpa using hacc
  | cons c cs ih =>
    intro s hs
    by_cases hc : c = '/'
    · subst hc
      rw [show splitSlashAux ('/' :: cs) acc = ⟨acc.reverse⟩ :: splitSlashAux cs [] by
        simp [splitSlashAux]] at hs
      rcases List.mem_cons.mp hs with rfl | hm
      · simpa using hacc
      · exact ih [] rfl s hm
    · rw [show splitSlashAux (c :: cs) acc = splitSlashAux cs (c :: acc) by
        simp [splitSlashAux, hc]] at hs
      refine ih (c :: acc) ?_ s hs
      simp [List.contains_cons]
      exact ⟨fun hcc => hc hcc.symm, by simpa using hacc⟩

theorem jsSplitSlash_slash_free (k : String) :
    ∀ s ∈ jsSplitSlash k, s.data.contains '/' = false :=
  splitSlashAux_slash_free k.data [] rfl

/-! ### Candidate paths: structure and closure -/

theorem parentPathOf_absPath (segs : List String) (hne : segs ≠ [])
    (hgood : ∀ s ∈ segs, GoodSeg s) :
    parentPathOf (absPath segs) =
      if segs.length = 1 then "/" else absPath segs.dropLast := by
  simp only [parentPathOf]
  rw [filter_jsSplitSlash_absPath segs hne hgood]
  by_cases h1 : segs.length = 1
  · rw [if_pos (by simp [List.length_dropLast, h1]), if_pos h1]
  · rw [if_neg (by
      simp only [List.length_dropLast]
      have hpos := List.length_pos.mpr hne
      omega), if_neg h1]
    rfl

theorem depthOf_absPath (segs : List String) (hne : segs ≠ [])
    (hgood : ∀ s ∈ segs, GoodSeg s) : depthOf (absPath segs) = segs.length := by
  simp only [depthOf]
  rw [filter_jsSplitSlash_absPath segs hne hgood]

theorem depthOf_root : depthOf "/" = 0 := by decide

theorem dropLast_good (segs : List String) (hgood : ∀ s ∈ segs, GoodSeg s) :
    ∀ s ∈ segs.dropLast, GoodSeg s :=
  fun s hs => hgood s (List.dropLast_subset _ hs)

theorem depthOf_parent_absPath (segs : List String) (hne : segs ≠ [])
    (hgood : ∀ s ∈ segs, GoodSeg s) :
    depthOf (parentPathOf (absPath segs)) + 1 = depthOf (absPath segs) := by
  rw [parentPathOf_absPath segs hne hgood, depthOf_absPath segs hne hgood]
  by_cases h1 : segs.length = 1
  · rw [if_pos h1, depthOf_root, h1]
  · rw [if_neg h1]
    have hlen : 1 ≤ segs.length := List.length_pos.mpr hne
    have hlen2 : 2 ≤ segs.length := by omega
    have hdne : segs.dropLast ≠ [] := by
      have : segs.dropLast.length = segs.length - 1 := List.length_dropLast segs
      intro hc
      rw [hc] at this
      simp at this
      omega
    rw [depthOf_absPath segs.dropLast hdne (dropLast_good segs hgood)]
    rw [List.length_dropLast]
    omega

theorem addPathsAux_spec : ∀ (parts pre : List String), (∀ s ∈ pre, GoodSeg s) →
    (∀ s ∈ parts, s.data.contains '/' = false) →
    ∀ x ∈ addPathsAux parts (jsJoinSlash pre),
      ∃ segs, segs ≠ [] ∧ (∀ s ∈ segs, GoodSeg s) ∧ x = absPath (pre ++ segs) ∧
        (segs.length = 1 ∨
          absPath ((pre ++ segs).dropLast) ∈ addPathsAux parts (jsJoinSlash pre)) := by
  intro parts
  induction parts with
  | nil =>
    intro pre _ _ x hx
    simp [addPathsAux] at hx
  | cons s rest ih =>
    intro pre hpre hparts x hx
    by_cases hs : s = ""
    · rw [show addPathsAux (s :: rest) (jsJoinSlash pre) =
        addPathsAux rest (jsJoinSlash pre) by simp [addPathsAux, hs]] at hx ⊢
      exact ih pre hpre (fun t ht => hparts t (by simp [ht])) x hx
    · have hgood_s : GoodSeg s := ⟨hs, hparts s (by simp)⟩
      have hjoin : (if jsJoinSlash pre ≠ "" then jsJoinSlash pre ++ "/" ++ s else s) =
          jsJoinSlash (pre ++ [s]) := by
        by_cases hp : pre = []
        · subst hp
          simp [jsJoinSlash]
        · rw [if_pos (jsJoinSlash_ne_empty pre hp hpre), jsJoinSlash_snoc pre s hp]
      have hstep : addPathsAux (s :: rest) (jsJoinSlash pre) =
          ("/" ++ jsJoinSlash (pre ++ [s])) :: addPathsAux rest (jsJoinSlash (pre ++ [s])) := by
        simp only [addPathsAux]
        rw [if_neg hs, hjoin]
      rw [hstep] at hx ⊢
      have hpre' : ∀ t ∈ pre ++ [s], GoodSeg t := by
        intro t ht
        rcases List.mem_append.mp ht with h | h
        · exact hpre t h
        · simp at h
          subst h
          exact hgood_s
      rcases List.mem_cons.mp hx with rfl | hxm
      · exact ⟨[s], by simp, by
          intro t ht
          simp at ht
          subst ht
          exact hgood_s, rfl, .inl rfl⟩
      · obtain ⟨segs', hne', hgood', hx', hpar'⟩ := ih (pre ++ [s]) hpre'
          (fun t ht => hparts t (by simp [ht])) x hxm
        refine ⟨s :: segs', by simp, ?_, ?_, ?_⟩
        · intro t ht
          rcases List.mem_cons.mp ht with rfl | h
          · exact hgood_s
          · exact hgood' t h
        · rw [hx']
          congr 1
          simp
        · right
          rcases hpar' with h1 | h2
          · obtain ⟨t, rfl⟩ := List.length_eq_one.mp h1
            have hdl : (pre ++ (s :: [t])).dropLast = pre ++ [s] := by
              rw [show pre ++ (s :: [t]) = (pre ++ [s]) ++ [t] by simp]
              exact List.dropLast_concat
            rw [hdl]
            exact List.mem_cons_self _ _
          · have hdl : (pre ++ (s :: segs')).dropLast = ((pre ++ [s]) ++ segs').dropLast := by
              simp
            rw [hdl]
            exact List.mem_cons_of_mem _ h2

theorem keyFolderPaths_spec (k : String) :
    ∀ x ∈ keyFolderPaths k,
      (∃ segs, segs ≠ [] ∧ (∀ s ∈ segs, GoodSeg s) ∧ x = absPath segs) ∧
      (parentPathOf x = "/" ∨ parentPathOf x ∈ keyFolderPaths k) := by
  intro x hx
  obtain ⟨segs, hne, hgood, hxeq, hpar⟩ := addPathsAux_spec ((jsSplitSlash k).dropLast) []
    (fun s hs => absurd hs (List.not_mem_nil s))
    (fun s hs => jsSplitSlash_slash_free k s (List.dropLast_subset _ hs))
    x hx
  have hxe : x = absPath segs := by simpa using hxeq
  refine ⟨⟨segs, hne, hgood, hxe⟩, ?_⟩
  by_cases h1 : segs.length = 1
  · left
    rw [hxe, parentPathOf_absPath segs hne hgood, if_pos h1]
  · right
    rw [hxe, parentPathOf_absPath segs hne hgood, if_neg h1]
    rcases hpar with h | h
    · exact absurd h h1
    · simpa using h

theorem mem_setInsert (l : List String) (x y : String) :
    y ∈ setInsert l x ↔ y ∈ l ∨ y = x := by
  unfold setInsert
  by_cases h : x ∈ l
  · rw [if_pos h]
    constructor
    · exact .inl
    · rintro (h1 | rfl)
      · exact h1
      · exact h
  · rw [if_neg h]
    simp

theorem mem_foldl_setInsert (chain : List String) :
    ∀ (acc : List String) (y : String),
      y ∈ chain.foldl setInsert acc ↔ y ∈ acc ∨ y ∈ chain := by
  induction chain with
  | nil => simp
  | cons c cs ih =>
    intro acc y
    rw [List.foldl_cons, ih (setInsert acc c) y, mem_setInsert]
    simp only [List.mem_cons]
    tauto

theorem mem_allPathsOf_aux (files : List FileMetadata) :
    ∀ (acc : List String) (y : String),
      y ∈ files.foldl (fun acc f => (keyFolderPaths f.fileKey).foldl setInsert acc) acc ↔
        y ∈ acc ∨ ∃ f ∈ files, y ∈ keyFolderPaths f.fileKey := by
  induction files with
  | nil => simp
  | cons f fs ih =>
    intro acc y
    rw [List.foldl_cons, ih, mem_foldl_setInsert]
    simp only [List.mem_cons]
    constructor
    · rintro ((h | h) | ⟨g, hg, hy⟩)
      · exact .inl h
      · exact .inr ⟨f, .inl rfl, h⟩
      · exact .inr ⟨g, .inr hg, hy⟩
    · rintro (h | ⟨g, (rfl | hg), hy⟩)
      · exact .inl (.inl h)
      · exact .inl (.inr hy)
      · exact .inr ⟨g, hg, hy⟩

theorem mem_allPathsOf (files : List FileMetadata) (y : String) :
    y ∈ allPathsOf files ↔ y = "/" ∨ ∃ f ∈ files, y ∈ keyFolderPaths f.fileKey := by
  unfold allPathsOf
  rw [mem_allPathsOf_aux]
  simp

/-! ### Folder map facts -/

theorem mapKeys_append (m1 m2 : FolderMap) :
    mapKeys (m1 ++ m2) = mapKeys m1 ++ mapKeys m2 := by
  simp [mapKeys]

theorem mapLookup_isSome_iff (m : FolderMap) (p : String) :
    (mapLookup m p).isSome = true ↔ p ∈ mapKeys m := by
  induction m with
  | nil => simp [mapLookup, mapKeys]
  | cons e rest ih =>
    obtain ⟨q, info⟩ := e
    by_cases h : q = p
    · subst h
      simp [mapLookup, mapKeys]
    · rw [show mapLookup ((q, info) :: rest) p = mapLookup rest p by simp [mapLookup, h]]
      rw [ih]
      constructor
      · intro hm
        exact List.mem_cons_of_mem _ hm
      · intro hm
        rcases List.mem_cons.mp hm with h1 | h1
        · exact absurd h1.symm h
        · exact h1

theorem mapLookup_none_iff (m : FolderMap) (p : String) :
    mapLookup m p = none ↔ p ∉ mapKeys m := by
  rw [← mapLookup_isSome_iff]
  cases mapLookup m p <;> simp

theorem mapLookup_mem (m : FolderMap) (p : String) (info : NodeInfo)
    (h : mapLookup m p = some info) : (p, info) ∈ m := by
  induction m with
  | nil => cases h
  | cons e rest ih =>
    obtain ⟨q, i⟩ := e
    by_cases hq : q = p
    · subst hq
      rw [show mapLookup ((q, i) :: rest) q = some i by simp [mapLookup]] at h
      rw [Option.some.injEq] at h
      subst h
      exact List.mem_cons_self _ _
    · rw [show mapLookup ((q, i) :: rest) p = mapLookup rest p by simp [mapLookup, hq]] at h
      exact List.mem_cons_of_mem _ (ih h)

theorem mapLookup_eq_of_mem (m : FolderMap) (hnd : (mapKeys m).Nodup) (p : String)
    (i : NodeInfo) (h : (p, i) ∈ m) : mapLookup m p = some i := by
  induction m with
  | nil => cases h
  | cons e rest ih =>
    obtain ⟨q, j⟩ := e
    rw [List.mem_cons] at h
    have hnd' := List.nodup_cons.mp hnd
    rcases h with h | h
    · rw [Prod.mk.injEq] at h
      obtain ⟨rfl, rfl⟩ := h
      simp [mapLookup]
    · have hq : q ≠ p := by
        intro hc
        subst hc
        exact hnd'.1 (by simpa [mapKeys] using List.mem_map_of_mem Prod.fst h)
      rw [show mapLookup ((q, j) :: rest) p = mapLookup rest p by simp [mapLookup, hq]]
      exact ih hnd'.2 h

theorem mapLookup_append_left (m1 m2 : FolderMap) (p : String) (i : NodeInfo)
    (h : mapLookup m1 p = some i) : mapLookup (m1 ++ m2) p = some i := by
  induction m1 with
  | nil => cases h
  | cons e rest ih =>
    obtain ⟨q, j⟩ := e
    by_cases hq : q = p
    · subst hq
      simp [mapLookup] at h ⊢
      exact h
    · rw [show mapLookup ((q, j) :: rest) p = mapLookup rest p by simp [mapLookup, hq]] at h
      rw [show mapLookup (((q, j) :: rest) ++ m2) p = mapLookup (rest ++ m2) p by
        simp [mapLookup, hq]]
      exact ih h

theorem mapLookup_append_right (m1 m2 : FolderMap) (p : String)
    (h : mapLookup m1 p = none) : mapLookup (m1 ++ m2) p = mapLookup m2 p := by
  induction m1 with
  | nil => rfl
  | cons e rest ih =>
    obtain ⟨q, j⟩ := e
    by_cases hq : q = p
    · subst hq
      simp [mapLookup] at h
    · rw [show mapLookup ((q, j) :: rest) p = mapLookup rest p by simp [mapLookup, hq]] at h
      rw [show mapLookup (((q, j) :: rest) ++ m2) p = mapLookup (rest ++ m2) p by
        simp [mapLookup, hq]]
      exact ih h

theorem mapKeys_mapAddChild (m : FolderMap) (pp c : String) :
    mapKeys (mapAddChild m pp c) = mapKeys m := by
  induction m with
  | nil => rfl
  | cons e rest ih =>
    obtain ⟨q, i⟩ := e
    by_cases hq : q = pp
    · rw [show mapAddChild ((q, i) :: rest) pp c =
        (q, ⟨i.name, if c ∈ i.childPaths then i.childPaths else i.childPaths ++ [c]⟩) :: rest by
          simp [mapAddChild, hq]]
      simp [mapKeys]
    · rw [show mapAddChild ((q, i) :: rest) pp c = (q, i) :: mapAddChild rest pp c by
        simp [mapAddChild, hq]]
      simp [mapKeys] at ih ⊢
      exact ih

theorem mapLookup_mapAddChild_ne (m : FolderMap) (pp c q : String) (h : q ≠ pp) :
    mapLookup (mapAddChild m pp c) q = mapLookup m q := by
  induction m with
  | nil => rfl
  | cons e rest ih =>
    obtain ⟨x, i⟩ := e
    by_cases hx : x = pp
    · subst hx
      have hxq : x ≠ q := fun hc => h (hc.symm)
      rw [show mapAddChild ((x, i) :: rest) x c =
        (x, ⟨i.name, if c ∈ i.childPaths then i.childPaths else i.childPaths ++ [c]⟩) :: rest by
          simp [mapAddChild]]
      rw [show mapLookup ((x,
        (⟨i.name, if c ∈ i.childPaths then i.childPaths else i.childPaths ++ [c]⟩ : NodeInfo))
          :: rest) q = mapLookup rest q by simp [mapLookup, hxq]]
      rw [show mapLookup ((x, i) :: rest) q = mapLookup rest q by
        simp [mapLookup, hxq]]
    · rw [show mapAddChild ((x, i) :: rest) pp c = (x, i) :: mapAddChild rest pp c by
        simp [mapAddChild, hx]]
      by_cases hxq : x = q
      · subst hxq
        simp [mapLookup]
      · rw [show mapLookup ((x, i) :: mapAddChild rest pp c) q = mapLookup (mapAddChild rest pp c) q
          by simp [mapLookup, hxq]]
        rw [show mapLookup ((x, i) :: rest) q = mapLookup rest q by simp [mapLookup, hxq]]
        exact ih

theorem mapLookup_mapAddChild_self (m : FolderMap) (pp c : String) (i : NodeInfo)
    (h : mapLookup m pp = some i) :
    mapLookup (mapAddChild m pp c) pp =
      some ⟨i.name, if c ∈ i.childPaths then i.childPaths else i.childPaths ++ [c]⟩ := by
  induction m with
  | nil => cases h
  | cons e rest ih =>
    obtain ⟨x, j⟩ := e
    by_cases hx : x = pp
    · subst hx
      rw [show mapLookup ((x, j) :: rest) x = some j by simp [mapLookup]] at h
      rw [Option.some.injEq] at h
      subst h
      rw [show mapAddChild ((x, j) :: rest) x c =
        (x, ⟨j.name, if c ∈ j.childPaths then j.childPaths else j.childPaths ++ [c]⟩) :: rest by
          simp [mapAddChild]]
      simp [mapLookup]
    · rw [show mapLookup ((x, j) :: rest) pp = mapLookup rest pp by simp [mapLookup, hx]] at h
      rw [show mapAddChild ((x, j) :: rest) pp c = (x, j) :: mapAddChild rest pp c by
        simp [mapAddChild, hx]]
      rw [show mapLookup ((x, j) :: mapAddChild rest pp c) pp =
        mapLookup (mapAddChild rest pp c) pp by simp [mapLookup, hx]]
      exact ih h

theorem mem_mapAddChild (m : FolderMap) (pp c : String) :
    ∀ e ∈ mapAddChild m pp c, e ∈ m ∨ ∃ i, (pp, i) ∈ m ∧
      e = (pp, ⟨i.name, if c ∈ i.childPaths then i.childPaths else i.childPaths ++ [c]⟩) := by
  induction m with
  | nil => intro e he; cases he
  | cons hd rest ih =>
    obtain ⟨x, i⟩ := hd
    intro e he
    by_cases hx : x = pp
    · subst hx
      rw [show mapAddChild ((x, i) :: rest) x c =
        (x, ⟨i.name, if c ∈ i.childPaths then i.childPaths else i.childPaths ++ [c]⟩) :: rest by
          simp [mapAddChild]] at he
      rcases List.mem_cons.mp he with rfl | hm
      · exact .inr ⟨i, List.mem_cons_self _ _, rfl⟩
      · exact .inl (List.mem_cons_of_mem _ hm)
    · rw [show mapAddChild ((x, i) :: rest) pp c = (x, i) :: mapAddChild rest pp c by
        simp [mapAddChild, hx]] at he
      rcases List.mem_cons.mp he with rfl | hm
      · exact .inl (List.mem_cons_self _ _)
      · rcases ih e hm with h | ⟨j, hj, hje⟩
        · exact .inl (List.mem_cons_of_mem _ h)
        · exact .inr ⟨j, List.mem_cons_of_mem _ hj, hje⟩

theorem childPathsAt_eq (m : FolderMap) (p : String) (i : NodeInfo)
    (h : mapLookup m p = some i) : childPathsAt m p = i.childPaths := by
  unfold childPathsAt
  rw [h]

theorem childPathsAt_congr (m m' : FolderMap) (p : String)
    (h : mapLookup m p = mapLookup m' p) : childPathsAt m p = childPathsAt m' p := by
  unfold childPathsAt
  rw [h]

/-- Shape of every candidate path handled by the second pass: the root, or
an absolute path of nonempty slash-free segments. -/
def PathWF (q : String) : Prop :=
  q = "/" ∨ ∃ segs, segs ≠ [] ∧ (∀ s ∈ segs, GoodSeg s) ∧ q = absPath segs

theorem splitLen_absPath (segs : List String) (hne : segs ≠ [])
    (hgood : ∀ s ∈ segs, GoodSeg s) :
    (jsSplitSlash (absPath segs)).length = segs.length + 1 := by
  rw [jsSplitSlash_absPath segs hne hgood]
  simp

/-- Invariant of the folder map kept by the second pass: the root is present,
keys are unique and well-formed, every recorded child edge points at a
present node whose computed parent is the recording node, and every non-root
node is recorded as a child of its present parent. -/
structure MInv (m : FolderMap) : Prop where
  rootMem : "/" ∈ mapKeys m
  keysNodup : (mapKeys m).Nodup
  keysWF : ∀ q ∈ mapKeys m, PathWF q
  childrenOk : ∀ e ∈ m, e.2.childPaths.Nodup ∧
    ∀ c ∈ e.2.childPaths, c ∈ mapKeys m ∧ c ≠ "/" ∧ parentPathOf c = e.1
  linked : ∀ q ∈ mapKeys m, q ≠ "/" → parentPathOf q ∈ mapKeys m ∧
    q ∈ childPathsAt m (parentPathOf q)

/-- `processPath` on the root or an already-present path changes nothing. -/
theorem processPath_root (m : FolderMap) : processPath m "/" = m := by
  simp [processPath]

theorem processPath_present (m : FolderMap) (q : String) (hroot : q ≠ "/")
    (hmem : q ∈ mapKeys m) : processPath m q = m := by
  have hs : (mapLookup m q).isSome = true := (mapLookup_isSome_iff m q).mpr hmem
  simp [processPath, hroot, hs]

/-- `processPath` on a fresh path whose parent is present appends the node
and records it as a child of its parent. -/
theorem processPath_fresh (m : FolderMap) (q : String) (hroot : q ≠ "/")
    (hmem : q ∉ mapKeys m) (pi : NodeInfo)
    (hpi : mapLookup m (parentPathOf q) = some pi) :
    processPath m q =
      mapAddChild (m ++ [(q, ⟨folderNameOf q, []⟩)]) (parentPathOf q) q := by
  have hnone : mapLookup m q = none := (mapLookup_none_iff m q).mpr hmem
  have hcond : ¬ ((mapLookup m q).isSome = true) := by
    rw [hnone]
    simp
  unfold processPath
  rw [if_neg hroot, if_neg hcond]
  show (match mapLookup (m ++ [(q, (⟨folderNameOf q, []⟩ : NodeInfo))]) (parentPathOf q) with
    | some _ => mapAddChild (m ++ [(q, (⟨folderNameOf q, []⟩ : NodeInfo))]) (parentPathOf q) q
    | none => m ++ [(q, (⟨folderNameOf q, []⟩ : NodeInfo))]) = _
  rw [mapLookup_append_left _ _ _ _ hpi]

/-- Inserting a fresh well-formed path whose parent is present preserves the
map invariant. -/
theorem mInv_fresh (m : FolderMap) (q : String) (segs : List String)
    (hInv : MInv m) (hsegs : segs ≠ []) (hgood : ∀ s ∈ segs, GoodSeg s)
    (hq : q = absPath segs) (hroot : q ≠ "/") (hmem : q ∉ mapKeys m)
    (pi : NodeInfo) (hpi : mapLookup m (parentPathOf q) = some pi) :
    MInv (mapAddChild (m ++ [(q, ⟨folderNameOf q, []⟩)]) (parentPathOf q) q) := by
  set ni : NodeInfo := ⟨folderNameOf q, []⟩ with hni
  set m1 : FolderMap := m ++ [(q, ni)] with hm1
  set m2 : FolderMap := mapAddChild m1 (parentPathOf q) q with hm2
  have hkeys1 : mapKeys m1 = mapKeys m ++ [q] := by
    rw [hm1, mapKeys_append]
    rfl
  have hnd1 : (mapKeys m1).Nodup := by
    rw [hkeys1]
    refine List.Nodup.append hInv.keysNodup (List.nodup_singleton q) ?_
    intro a ha hb
    rw [List.mem_singleton] at hb
    subst hb
    exact hmem ha
  have hkeys2 : mapKeys m2 = mapKeys m ++ [q] := by
    rw [hm2, mapKeys_mapAddChild, hkeys1]
  have hlkm1 : ∀ y, y ≠ q → mapLookup m1 y = mapLookup m y := by
    intro y hy
    cases hlk : mapLookup m y with
    | some i =>
      rw [hm1, mapLookup_append_left _ _ _ _ hlk]
    | none =>
      rw [hm1, mapLookup_append_right _ _ _ hlk]
      have hqy : q ≠ y := fun hc => hy hc.symm
      simp [mapLookup, hqy]
  have hppq : parentPathOf q ≠ q := by
    intro hc
    have hd := depthOf_parent_absPath segs hsegs hgood
    rw [← hq, hc] at hd
    omega
  have hpiq : q ∉ pi.childPaths := by
    intro hc
    exact hmem ((hInv.childrenOk _ (mapLookup_mem _ _ _ hpi)).2 q hc).1
  have hpi1 : mapLookup m1 (parentPathOf q) = some pi := by
    rw [hlkm1 _ hppq]
    exact hpi
  have hlk2pp : mapLookup m2 (parentPathOf q) = some ⟨pi.name, pi.childPaths ++ [q]⟩ := by
    rw [hm2, mapLookup_mapAddChild_self _ _ _ _ hpi1, if_neg hpiq]
  have hlk2ne : ∀ y, y ≠ parentPathOf q → mapLookup m2 y = mapLookup m1 y := by
    intro y hy
    rw [hm2]
    exact mapLookup_mapAddChild_ne _ _ _ _ hy
  have hchAtpp : childPathsAt m2 (parentPathOf q) = pi.childPaths ++ [q] :=
    childPathsAt_eq _ _ _ hlk2pp
  have hchm : childPathsAt m (parentPathOf q) = pi.childPaths := childPathsAt_eq _ _ _ hpi
  have hppmem : parentPathOf q ∈ mapKeys m := by
    refine (mapLookup_isSome_iff _ _).mp ?_
    rw [hpi]
    rfl
  have hpiOk := hInv.childrenOk _ (mapLookup_mem _ _ _ hpi)
  refine ⟨?_, ?_, ?_, ?_, ?_⟩
  · rw [hkeys2]
    exact List.mem_append_left _ hInv.rootMem
  · rw [hkeys2]
    refine List.Nodup.append hInv.keysNodup (List.nodup_singleton q) ?_
    intro a ha hb
    rw [List.mem_singleton] at hb
    subst hb
    exact hmem ha
  · intro y hy
    rw [hkeys2] at hy
    rcases List.mem_append.mp hy with hy | hy
    · exact hInv.keysWF y hy
    · rw [List.mem_singleton] at hy
      subst hy
      exact Or.inr ⟨segs, hsegs, hgood, hq⟩
  · intro e he
    rw [hm2] at he
    rcases mem_mapAddChild _ _ _ e he with he1 | ⟨i, hi, hei⟩
    · rw [hm1] at he1
      rcases List.mem_append.mp he1 with he1 | he1
      · obtain ⟨hnd, hall⟩ := hInv.childrenOk e he1
        refine ⟨hnd, ?_⟩
        intro c hc
        obtain ⟨hc1, hc2, hc3⟩ := hall c hc
        exact ⟨by rw [hkeys2]; exact List.mem_append_left _ hc1, hc2, hc3⟩
      · rw [List.mem_singleton] at he1
        subst he1
        refine ⟨by simp [hni], ?_⟩
        intro c hc
        rw [hni] at hc
        simp at hc
    · have hieq : mapLookup m1 (parentPathOf q) = some i :=
        mapLookup_eq_of_mem m1 hnd1 (parentPathOf q) i hi
      rw [hpi1] at hieq
      injection hieq with hieq
      subst hieq
      rw [if_neg hpiq] at hei
      subst hei
      refine ⟨?_, ?_⟩
      · refine List.Nodup.append hpiOk.1 (List.nodup_singleton q) ?_
        intro a ha hb
        rw [List.mem_singleton] at hb
        subst hb
        exact hpiq ha
      · intro c hc
        rcases List.mem_append.mp hc with hc | hc
        · obtain ⟨hc1, hc2, hc3⟩ := hpiOk.2 c hc
          exact ⟨by rw [hkeys2]; exact List.mem_append_left _ hc1, hc2, hc3⟩
        · rw [List.mem_singleton] at hc
          subst hc
          exact ⟨by rw [hkeys2]; exact List.mem_append_right _ (List.mem_singleton_self c),
            hroot, rfl⟩
  · intro y hy hyroot
    rw [hkeys2] at hy
    rcases List.mem_append.mp hy with hy | hy
    · obtain ⟨hp1, hp2⟩ := hInv.linked y hy hyroot
      refine ⟨by rw [hkeys2]; exact List.mem_append_left _ hp1, ?_⟩
      by_cases hcase : parentPathOf y = parentPathOf q
      · rw [hcase, hchAtpp]
        rw [hcase, hchm] at hp2
        exact List.mem_append_left _ hp2
      · have hyq : parentPathOf y ≠ q := by
          intro hc
          rw [hc] at hp1
          exact hmem hp1
        rw [show childPathsAt m2 (parentPathOf y) = childPathsAt m (parentPathOf y) from by
          unfold childPathsAt
          rw [hlk2ne _ hcase, hlkm1 _ hyq]]
        exact hp2
    · rw [List.mem_singleton] at hy
      subst hy
      refine ⟨by rw [hkeys2]; exact List.mem_append_left _ hppmem, ?_⟩
      rw [hchAtpp]
      exact List.mem_append_right _ (List.mem_singleton_self y)

/-- One `processPath` step preserves the invariant, keeps every present key
and makes the processed path present. -/
theorem processPath_inv (m : FolderMap) (q : String) (hInv : MInv m)
    (hWF : PathWF q) (hpar : q ≠ "/" → parentPathOf q ∈ mapKeys m) :
    MInv (processPath m q) ∧
    (∀ y ∈ mapKeys m, y ∈ mapKeys (processPath m q)) ∧
    q ∈ mapKeys (processPath m q) := by
  by_cases hroot : q = "/"
  · subst hroot
    rw [processPath_root]
    exact ⟨hInv, fun y hy => hy, hInv.rootMem⟩
  by_cases hmem : q ∈ mapKeys m
  · rw [processPath_present m q hroot hmem]
    exact ⟨hInv, fun y hy => hy, hmem⟩
  · obtain ⟨segs, hsegs, hgood, hq⟩ : ∃ segs, segs ≠ [] ∧ (∀ s ∈ segs, GoodSeg s) ∧
      q = absPath segs := hWF.resolve_left hroot
    have hparent := hpar hroot
    obtain ⟨pi, hpi⟩ : ∃ pi, mapLookup m (parentPathOf q) = some pi := by
      have hs := (mapLookup_isSome_iff m (parentPathOf q)).mpr hparent
      cases hlk : mapLookup m (parentPathOf q) with
      | none =>
        rw [hlk] at hs
        simp at hs
      | some pi => exact ⟨pi, rfl⟩
    have heq := processPath_fresh m q hroot hmem pi hpi
    have hkeys : mapKeys (processPath m q) = mapKeys m ++ [q] := by
      rw [heq, mapKeys_mapAddChild, mapKeys_append]
      rfl
    refine ⟨?_, ?_, ?_⟩
    · rw [heq]
      exact mInv_fresh m q segs hInv hsegs hgood hq hroot hmem pi hpi
    · intro y hy
      rw [hkeys]
      exact List.mem_append_left _ hy
    · rw [hkeys]
      exact List.mem_append_right _ (List.mem_singleton_self q)

/-- Folding `processPath` over a depth-sorted list of well-formed paths
whose parents are the root, already present, or in the list preserves the
invariant and ends with every listed path present. -/
theorem foldl_processPath_inv (l : List String) :
    ∀ (m : FolderMap), MInv m →
    (∀ q ∈ l, PathWF q) →
    l.Pairwise (fun a b => depthLe a b = true) →
    (∀ q ∈ l, q ≠ "/" → parentPathOf q = "/" ∨ parentPathOf q ∈ mapKeys m ∨
      parentPathOf q ∈ l) →
    MInv (l.foldl processPath m) ∧
    (∀ y ∈ mapKeys m, y ∈ mapKeys (l.foldl processPath m)) ∧
    (∀ q ∈ l, q ∈ mapKeys (l.foldl processPath m)) := by
  induction l with
  | nil =>
    intro m hInv _ _ _
    exact ⟨hInv, fun y hy => hy, fun q hq => absurd hq (List.not_mem_nil q)⟩
  | cons x xs ih =>
    intro m hInv hWF hpw hpar
    have hxWF : PathWF x := hWF x (List.mem_cons_self _ _)
    have hxpar : x ≠ "/" → parentPathOf x ∈ mapKeys m := by
      intro hxroot
      rcases hpar x (List.mem_cons_self _ _) hxroot with hp | hp | hp
      · rw [hp]
        exact hInv.rootMem
      · exact hp
      · -- the parent cannot be in the list itself
        obtain ⟨segs, hsegs, hgood, hx⟩ := hxWF.resolve_left hxroot
        by_cases hpp : parentPathOf x = "/"
        · rw [hpp]
          exact hInv.rootMem
        · exfalso
          have hlen1 : segs.length ≠ 1 := by
            intro h1
            apply hpp
            rw [hx, parentPathOf_absPath segs hsegs hgood, if_pos h1]
          have hlen2 : 2 ≤ segs.length := by
            have : segs.length ≠ 0 := by
              intro h0
              exact hsegs (List.length_eq_zero.mp h0)
            omega
          have hppeq : parentPathOf x = absPath segs.dropLast := by
            rw [hx, parentPathOf_absPath segs hsegs hgood, if_neg hlen1]
          have hdl : segs.dropLast ≠ [] := by
            intro h0
            have := congrArg List.length h0
            rw [List.length_dropLast] at this
            simp at this
            omega
          have hple : depthLe x (parentPathOf x) = true := by
            rcases List.mem_cons.mp hp with hc | hc
            · -- parent equals x: impossible by depth
              exfalso
              have hd := depthOf_parent_absPath segs hsegs hgood
              rw [← hx, hc] at hd
              omega
            · exact (List.pairwise_cons.mp hpw).1 _ hc
          rw [hppeq, hx] at hple
          simp only [depthLe, decide_eq_true_eq] at hple
          rw [splitLen_absPath segs hsegs hgood,
            splitLen_absPath segs.dropLast hdl (dropLast_good segs hgood)] at hple
          rw [List.length_dropLast] at hple
          omega
    obtain ⟨hInv1, hmono1, hx1⟩ := processPath_inv m x hInv hxWF hxpar
    have hXsWF : ∀ q ∈ xs, PathWF q := fun q hq => hWF q (List.mem_cons_of_mem _ hq)
    have hpw' : xs.Pairwise (fun a b => depthLe a b = true) := (List.pairwise_cons.mp hpw).2
    have hpar' : ∀ q ∈ xs, q ≠ "/" → parentPathOf q = "/" ∨
        parentPathOf q ∈ mapKeys (processPath m x) ∨ parentPathOf q ∈ xs := by
      intro q hq hqroot
      rcases hpar q (List.mem_cons_of_mem _ hq) hqroot with hp | hp | hp
      · exact Or.inl hp
      · exact Or.inr (Or.inl (hmono1 _ hp))
      · rcases List.mem_cons.mp hp with hc | hc
        · rw [hc]
          exact Or.inr (Or.inl hx1)
        · exact Or.inr (Or.inr hc)
    obtain ⟨hInv2, hmono2, hmem2⟩ := ih (processPath m x) hInv1 hXsWF hpw' hpar'
    refine ⟨hInv2, ?_, ?_⟩
    · intro y hy
      exact hmono2 y (hmono1 y hy)
    · intro q hq
      rcases List.mem_cons.mp hq with hc | hc
      · rw [hc]
        exact hmono2 x hx1
      · exact hmem2 q hc

theorem lookup_of_mem (m : FolderMap) (p : String) (h : p ∈ mapKeys m) :
    ∃ i, mapLookup m p = some i := by
  have hs := (mapLookup_isSome_iff m p).mpr h
  cases hlk : mapLookup m p with
  | none =>
    rw [hlk] at hs
    simp at hs
  | some i => exact ⟨i, rfl⟩

/-- The seeded map holding only the root node satisfies the invariant. -/
theorem mInv_initial : MInv [("/", (⟨"Root", []⟩ : NodeInfo))] := by
  refine ⟨?_, ?_, ?_, ?_, ?_⟩
  · simp [mapKeys]
  · simp [mapKeys]
  · intro q hq
    simp [mapKeys] at hq
    subst hq
    exact Or.inl rfl
  · intro e he
    simp at he
    subst he
    refine ⟨by simp, ?_⟩
    intro c hc
    simp at hc
  · intro q hq hqroot
    simp [mapKeys] at hq
    exact absurd hq hqroot

/-- The finished folder map satisfies the invariant and holds every
candidate path. -/
theorem mInv_finalMap (files : List FileMetadata) :
    MInv (finalMap files) ∧
    ∀ q ∈ allPathsOf files, q ∈ mapKeys (finalMap files) := by
  unfold finalMap
  have hWF : ∀ q ∈ sortByDepth (allPathsOf files), PathWF q := by
    intro q hq
    rw [mem_sortByDepth] at hq
    rcases (mem_allPathsOf files q).mp hq with h | ⟨f, hf, h⟩
    · exact Or.inl h
    · exact Or.inr ((keyFolderPaths_spec f.fileKey q h).1)
  have hpar : ∀ q ∈ sortByDepth (allPathsOf files), q ≠ "/" →
      parentPathOf q = "/" ∨
      parentPathOf q ∈ mapKeys [("/", (⟨"Root", []⟩ : NodeInfo))] ∨
      parentPathOf q ∈ sortByDepth (allPathsOf files) := by
    intro q hq hqroot
    rw [mem_sortByDepth] at hq
    rcases (mem_allPathsOf files q).mp hq with h | ⟨f, hf, h⟩
    · exact absurd h hqroot
    · rcases (keyFolderPaths_spec f.fileKey q h).2 with h2 | h2
      · exact Or.inl h2
      · refine Or.inr (Or.inr ?_)
        rw [mem_sortByDepth]
        exact (mem_allPathsOf files _).mpr (Or.inr ⟨f, hf, h2⟩)
  obtain ⟨h1, _h2, h3⟩ := foldl_processPath_inv (sortByDepth (allPathsOf files))
    [("/", (⟨"Root", []⟩ : NodeInfo))] mInv_initial hWF (sortByDepth_pairwise _) hpar
  exact ⟨h1, fun q hq => h3 q ((mem_sortByDepth _ _).mpr hq)⟩

/-! ### Counting nodes in the materialized tree -/

/-- Iterated `parentPathOf`. -/
def iterParent : Nat → String → String
  | 0, q => q
  | n + 1, q => iterParent n (parentPathOf q)

theorem iterParent_succ_outer (n : Nat) (q : String) :
    iterParent (n + 1) q = parentPathOf (iterParent n q) := by
  induction n generalizing q with
  | zero => rfl
  | succ k ihk =>
    rw [show iterParent (k + 1 + 1) q = iterParent (k + 1) (parentPathOf q) from rfl]
    rw [ihk (parentPathOf q)]
    rfl

theorem key_parent_step (m : FolderMap) (hInv : MInv m) (q : String)
    (hq : q ∈ mapKeys m) (hroot : q ≠ "/") :
    parentPathOf q ∈ mapKeys m ∧ depthOf (parentPathOf q) + 1 = depthOf q := by
  obtain ⟨segs, hsegs, hgood, hqe⟩ := (hInv.keysWF q hq).resolve_left hroot
  refine ⟨(hInv.linked q hq hroot).1, ?_⟩
  rw [hqe]
  exact depthOf_parent_absPath segs hsegs hgood

theorem key_depth_zero (m : FolderMap) (hInv : MInv m) (q : String)
    (hq : q ∈ mapKeys m) (hd : depthOf q = 0) : q = "/" := by
  by_contra hroot
  obtain ⟨segs, hsegs, hgood, hqe⟩ := (hInv.keysWF q hq).resolve_left hroot
  rw [hqe, depthOf_absPath segs hsegs hgood] at hd
  exact hsegs (List.length_eq_zero.mp hd)

theorem iterParent_chain (m : FolderMap) (hInv : MInv m) :
    ∀ (n : Nat) (q : String), q ∈ mapKeys m → n ≤ depthOf q →
      iterParent n q ∈ mapKeys m ∧ depthOf (iterParent n q) + n = depthOf q := by
  intro n
  induction n with
  | zero =>
    intro q hq _
    exact ⟨hq, rfl⟩
  | succ k ihk =>
    intro q hq hle
    have hroot : q ≠ "/" := by
      intro hc
      subst hc
      rw [depthOf_root] at hle
      omega
    obtain ⟨hpmem, hpd⟩ := key_parent_step m hInv q hq hroot
    obtain ⟨h1, h2⟩ := ihk (parentPathOf q) hpmem (by omega)
    refine ⟨h1, ?_⟩
    rw [show iterParent (k + 1) q = iterParent k (parentPathOf q) from rfl]
    omega

theorem iterParent_depth_root (m : FolderMap) (hInv : MInv m) :
    ∀ (d : Nat) (q : String), q ∈ mapKeys m → depthOf q = d → iterParent d q = "/" := by
  intro d
  induction d with
  | zero =>
    intro q hq hd
    exact key_depth_zero m hInv q hq hd
  | succ k ihk =>
    intro q hq hd
    have hroot : q ≠ "/" := by
      intro hc
      subst hc
      rw [depthOf_root] at hd
      omega
    obtain ⟨hpmem, hpd⟩ := key_parent_step m hInv q hq hroot
    rw [show iterParent (k + 1) q = iterParent k (parentPathOf q) from rfl]
    exact ihk (parentPathOf q) hpmem (by omega)

theorem countPathList_append (fs gs : List Folder) (q : String) :
    countPathList (fs ++ gs) q = countPathList fs q + countPathList gs q := by
  induction fs with
  | nil => simp [countPathList]
  | cons f fs ihf =>
    rw [List.cons_append]
    rw [show countPathList (f :: (fs ++ gs)) q =
      countPath f q + countPathList (fs ++ gs) q from rfl]
    rw [show countPathList (f :: fs) q = countPath f q + countPathList fs q from rfl]
    rw [ihf]
    omega

theorem materializeList_cons (m : FolderMap) (fuel : Nat) (c : String) (cs : List String) :
    materializeList m fuel (c :: cs) =
      materializeList m fuel [c] ++ materializeList m fuel cs := by
  cases fuel <;> simp [materializeList]

theorem countPathList_zero_of (m : FolderMap) (fuel : Nat) (q : String) (cs : List String)
    (h : ∀ c ∈ cs, countPathList (materializeList m fuel [c]) q = 0) :
    countPathList (materializeList m fuel cs) q = 0 := by
  induction cs with
  | nil => cases fuel <;> simp [materializeList, countPathList]
  | cons c cs ihc =>
    rw [materializeList_cons, countPathList_append]
    rw [h c (List.mem_cons_self _ _), ihc (fun d hd => h d (List.mem_cons_of_mem _ hd))]

theorem countPathList_one_of (m : FolderMap) (fuel : Nat) (q a : String) (cs : List String)
    (hnd : cs.Nodup)
    (h : ∀ c ∈ cs, countPathList (materializeList m fuel [c]) q = if c = a then 1 else 0) :
    countPathList (materializeList m fuel cs) q = if a ∈ cs then 1 else 0 := by
  induction cs with
  | nil => cases fuel <;> simp [materializeList, countPathList]
  | cons c cs ihc =>
    rw [materializeList_cons, countPathList_append]
    rw [h c (List.mem_cons_self _ _)]
    have hnd' := List.nodup_cons.mp hnd
    rw [ihc hnd'.2 (fun d hd => h d (List.mem_cons_of_mem _ hd))]
    by_cases hca : c = a
    · subst hca
      rw [if_pos rfl, if_neg hnd'.1, if_pos (List.mem_cons_self _ _)]
    · rw [if_neg hca]
      by_cases hma : a ∈ cs
      · rw [if_pos hma, if_pos (List.mem_cons_of_mem _ hma)]
      · rw [if_neg hma, if_neg ?_]
        intro hc2
        rcases List.mem_cons.mp hc2 with h2 | h2
        · exact hca h2.symm
        · exact hma h2

theorem materialize_single_zero (m : FolderMap) (p q : String) :
    countPathList (materializeList m 0 [p]) q = if p = q then 1 else 0 := by
  simp [materializeList, countPathList, countPath]

theorem materialize_single_succ (m : FolderMap) (fuel : Nat) (p q : String) :
    countPathList (materializeList m (fuel + 1) [p]) q =
      (if p = q then 1 else 0) +
        countPathList (materializeList m fuel (childPathsAt m p)) q := by
  simp [materializeList, countPathList, countPath]

theorem le_mapDepthBound (m : FolderMap) : ∀ q ∈ mapKeys m, depthOf q ≤ mapDepthBound m := by
  induction m with
  | nil =>
    intro q hq
    simp [mapKeys] at hq
  | cons e rest ihm =>
    intro q hq
    have hq' : q = e.1 ∨ q ∈ mapKeys rest := by simpa [mapKeys] using hq
    rw [show mapDepthBound (e :: rest) =
      max (((jsSplitSlash e.1).filter (fun s => s ≠ "")).length) (mapDepthBound rest) from rfl]
    rcases hq' with rfl | hc
    · exact le_max_left _ _
    · exact le_trans (ihm q hc) (le_max_right _ _)

/-- Node count for `q` in the tree materialized below `p`: one when `q`
reaches `p` along its parent chain, zero otherwise. -/
theorem cnt_main (m : FolderMap) (hInv : MInv m) (q : String) (hq : q ∈ mapKeys m) :
    ∀ (fuel : Nat) (p : String), p ∈ mapKeys m → depthOf q ≤ depthOf p + fuel →
      countPathList (materializeList m fuel [p]) q =
        if depthOf p ≤ depthOf q ∧ iterParent (depthOf q - depthOf p) q = p then 1
        else 0 := by
  intro fuel
  induction fuel with
  | zero =>
    intro p hp hle
    rw [materialize_single_zero]
    by_cases hpq : p = q
    · subst hpq
      rw [if_pos rfl]
      rw [if_pos ⟨le_refl _, by rw [Nat.sub_self]; rfl⟩]
    · rw [if_neg hpq, if_neg ?_]
      intro hcond
      obtain ⟨h1, h2⟩ := hcond
      have hdd : depthOf q - depthOf p = 0 := by omega
      rw [hdd] at h2
      simp [iterParent] at h2
      exact hpq h2.symm
  | succ k ihk =>
    intro p hp hle
    rw [materialize_single_succ]
    obtain ⟨ip, hip⟩ := lookup_of_mem m p hp
    have hchAt : childPathsAt m p = ip.childPaths := childPathsAt_eq _ _ _ hip
    have hOk := hInv.childrenOk _ (mapLookup_mem _ _ _ hip)
    have hcd : ∀ c ∈ ip.childPaths, depthOf c = depthOf p + 1 := by
      intro c hc
      obtain ⟨hc1, hc2, hc3⟩ := hOk.2 c hc
      have hc3' : parentPathOf c = p := hc3
      have hstep := (key_parent_step m hInv c hc1 hc2).2
      rw [hc3'] at hstep
      omega
    have hccount : ∀ c ∈ ip.childPaths,
        countPathList (materializeList m k [c]) q =
          if depthOf c ≤ depthOf q ∧ iterParent (depthOf q - depthOf c) q = c then 1
          else 0 := by
      intro c hc
      refine ihk c (hOk.2 c hc).1 ?_
      rw [hcd c hc]
      omega
    by_cases hpq : p = q
    · subst hpq
      have hz : countPathList (materializeList m k (childPathsAt m p)) p = 0 := by
        rw [hchAt]
        refine countPathList_zero_of _ _ _ _ ?_
        intro c hc
        rw [hccount c hc, if_neg ?_]
        intro hcond
        have := hcond.1
        rw [hcd c hc] at this
        omega
      rw [if_pos rfl, hz]
      rw [if_pos ⟨le_refl _, by rw [Nat.sub_self]; rfl⟩]
    · rw [if_neg hpq]
      by_cases hsub : depthOf p + 1 ≤ depthOf q
      · have harith : depthOf q - depthOf p = (depthOf q - (depthOf p + 1)) + 1 := by omega
        have ha : iterParent (depthOf q - depthOf p) q =
            parentPathOf (iterParent (depthOf q - (depthOf p + 1)) q) := by
          rw [harith, iterParent_succ_outer]
        have hcifa : ∀ c ∈ ip.childPaths,
            countPathList (materializeList m k [c]) q =
              if c = iterParent (depthOf q - (depthOf p + 1)) q then 1 else 0 := by
          intro c hc
          rw [hccount c hc]
          by_cases hca : c = iterParent (depthOf q - (depthOf p + 1)) q
          · have hcnd : depthOf c ≤ depthOf q ∧ iterParent (depthOf q - depthOf c) q = c := by
              constructor
              · rw [hcd c hc]
                exact hsub
              · rw [hcd c hc, hca]
            rw [if_pos hca, if_pos hcnd]
          · rw [if_neg hca, if_neg ?_]
            intro hcond
            obtain ⟨h1, h2⟩ := hcond
            rw [hcd c hc] at h2
            exact hca h2.symm
        have hsum : countPathList (materializeList m k (childPathsAt m p)) q =
            if iterParent (depthOf q - (depthOf p + 1)) q ∈ ip.childPaths then 1 else 0 := by
          rw [hchAt]
          exact countPathList_one_of m k q _ ip.childPaths hOk.1 hcifa
        rw [hsum]
        by_cases hmemA : iterParent (depthOf q - (depthOf p + 1)) q ∈ ip.childPaths
        · have hcnd2 : depthOf p ≤ depthOf q ∧ iterParent (depthOf q - depthOf p) q = p := by
            refine ⟨by omega, ?_⟩
            rw [ha]
            exact (hOk.2 _ hmemA).2.2
          rw [if_pos hmemA, if_pos hcnd2]
        · rw [if_neg hmemA, if_neg ?_]
          intro hcond
          obtain ⟨h1, h2⟩ := hcond
          apply hmemA
          obtain ⟨hamem, had⟩ := iterParent_chain m hInv (depthOf q - (depthOf p + 1)) q hq
            (by omega)
          have haroot : iterParent (depthOf q - (depthOf p + 1)) q ≠ "/" := by
            intro hc
            rw [hc, depthOf_root] at had
            omega
          obtain ⟨hl1, hl2⟩ := hInv.linked _ hamem haroot
          have hpar : parentPathOf (iterParent (depthOf q - (depthOf p + 1)) q) = p := by
            rw [← ha]
            exact h2
          rw [hpar] at hl2
          rw [show childPathsAt m p = ip.childPaths from hchAt] at hl2
          exact hl2
      · have hz : countPathList (materializeList m k (childPathsAt m p)) q = 0 := by
          rw [hchAt]
          refine countPathList_zero_of _ _ _ _ ?_
          intro c hc
          rw [hccount c hc, if_neg ?_]
          intro hcond
          have := hcond.1
          rw [hcd c hc] at this
          omega
        rw [hz]
        rw [if_neg ?_]
        intro hcond
        obtain ⟨h1, h2⟩ := hcond
        have hdd : depthOf q - depthOf p = 0 := by omega
        rw [hdd] at h2
        simp [iterParent] at h2
        exact hpq h2.symm

theorem countPath_head (m : FolderMap) (fuel : Nat) (p q : String) :
    countPath (Folder.mk (nameAt m p) p (materializeList m fuel (childPathsAt m p))) q =
      countPathList (materializeList m (fuel + 1) [p]) q := by
  rw [materialize_single_succ]
  rfl

/-- The built tree is a single root holding each present map key exactly
once. -/
theorem buildFolderStructure_shape (files : List FileMetadata) :
    ∃ root, buildFolderStructure files = [root] ∧ Folder.path root = "/" ∧
      ∀ p ∈ mapKeys (finalMap files), countPath root p = 1 := by
  obtain ⟨hInv, hcover⟩ := mInv_finalMap files
  refine ⟨Folder.mk (nameAt (finalMap files) "/") "/" (materializeList (finalMap files)
      (mapDepthBound (finalMap files)) (childPathsAt (finalMap files) "/")), rfl, rfl, ?_⟩
  intro p hp
  rw [countPath_head]
  have hone := cnt_main (finalMap files) hInv p hp (mapDepthBound (finalMap files) + 1) "/"
    hInv.rootMem (by
      have hb := le_mapDepthBound (finalMap files) p hp
      rw [depthOf_root]
      omega)
  have hc1 : depthOf "/" ≤ depthOf p := by
    rw [depthOf_root]
    exact Nat.zero_le _
  have hc2 : iterParent (depthOf p - depthOf "/") p = "/" := by
    rw [depthOf_root, Nat.sub_zero]
    exact iterParent_depth_root (finalMap files) hInv (depthOf p) p hp rfl
  rw [if_pos ⟨hc1, hc2⟩] at hone
  exact hone

/-- C2: for every non-empty file list the tree builder
`buildFolderStructure` produces exactly one root node, whose path is `/`,
and every logical path in the parent chain of every file key — the root and
each ancestor folder path of the key — appears as exactly one node of the
resulting tree: no duplicates and no omitted intermediate folder. -/
theorem c2_tree_builder (files : List FileMetadata) (_hne : files ≠ []) :
    ∃ root, buildFolderStructure files = [root] ∧ Folder.path root = "/" ∧
      ∀ f ∈ files, ∀ p ∈ "/" :: keyFolderPaths f.fileKey, countPath root p = 1 := by
  obtain ⟨root, h1, h2, h3⟩ := buildFolderStructure_shape files
  refine ⟨root, h1, h2, ?_⟩
  intro f hf p hp
  refine h3 p ?_
  rcases List.mem_cons.mp hp with hc | hc
  · rw [hc]
    exact (mInv_finalMap files).1.rootMem
  · exact (mInv_finalMap files).2 p ((mem_allPathsOf files p).mpr (Or.inr ⟨f, hf, hc⟩))

/-- A one-file fixture with the two-level key `a/b/x.png`. -/
def c2File : FileMetadata :=
  { name := "x.png"
    url := ""
    publicUrl := ""
    size := 1
    uploadDate := ""
    folderPath := "/a/b"
    fileKey := "a/b/x.png" }

/-- Witness for C2 at a one-file store with the two-level key
`a/b/x.png`. -/
theorem c2_tree_builder_witness :
    ∃ root, buildFolderStructure [c2File] = [root] ∧ Folder.path root = "/" ∧
      ∀ f ∈ [c2File], ∀ p ∈ "/" :: keyFolderPaths f.fileKey, countPath root p = 1 :=
  c2_tree_builder [c2File] (by simp)
